import Mathlib

/-!
# Verification of the ArborX BVH tree-traversal core

This file formalises the traversal kernels of
`src/details/ArborX_DetailsTreeTraversal.hpp`:

* the spatial traversal kernels (two-child stack variant, rope variant, and
  the degenerate one-leaf kernel),
* the nearest-neighbour traversal kernel (best-first descent with a bounded
  max-heap and a pruning radius), in both its stack-distance and its
  recompute-on-pop (`__CUDA_ARCH__`) variants, and in both node encodings
  (two children vs. left child plus rope),
* the dispatcher behaviour on degenerate inputs.

Modelling conventions:

* Bounding volumes are an abstract type `α`; a spatial predicate is a
  function `α → Bool` and the distance from the query geometry to a bounding
  volume is a function `α → WithTop ℚ` (`⊤` plays the role of the floating
  point `+∞` produced by `KokkosExt::ArithmeticTraits::infinity<float>`;
  the kernels only ever copy and compare distances, so an ordered field with
  an absorbing top element is a faithful model of those operations).
* A logical BVH is the inductive binary tree `BTree`.  The node arrays of the
  two encodings are `List`s of nodes addressed by integer ids, exactly as the
  C++ code addresses nodes through `getNodePtr`; dereferencing an invalid id
  (undefined behaviour in C++) makes the modelled kernel return `none`.
* Loops are modelled with explicit fuel; a kernel result `some out` means the
  loop reached its exit condition and emitted `out` (the list of callback
  invocations, in order).
* The `PriorityQueue` over the scratch buffer and `sortHeap` live in headers
  that are not part of this repository snapshot; they are modelled from the
  spec (§4.4 and §4.3.3), see `hpush`, `leafUpdate` and `sortHeap` below.
-/

namespace ArborX

/-- Distances and the pruning radius: rationals extended with `+∞`. -/
abbrev D : Type := WithTop ℚ

/-- A heap entry `(leaf_index, distance)` (`Kokkos::pair<int, float>`). -/
abbrev Entry : Type := Nat × D

/-- A logical bounding-volume hierarchy: every node carries its bounding
volume, and every leaf carries its permutation index. -/
inductive BTree (α : Type) where
  | leaf (bv : α) (idx : Nat)
  | node (bv : α) (l r : BTree α)
deriving Repr, DecidableEq

namespace BTree

variable {α : Type}

/-- `getBoundingVolume` of the root node of a subtree. -/
def bv : BTree α → α
  | .leaf b _ => b
  | .node b _ _ => b

/-- `isLeaf()` of the root node of a subtree. -/
def isLeaf : BTree α → Bool
  | .leaf _ _ => true
  | .node _ _ _ => false

/-- `getLeafPermutationIndex()`; only meaningful on leaves. -/
def leafIndex : BTree α → Nat
  | .leaf _ i => i
  | .node _ _ _ => 0

/-- Number of nodes of a subtree (used as a termination measure). -/
def tsize : BTree α → Nat
  | .leaf _ _ => 1
  | .node _ l r => 1 + l.tsize + r.tsize

/-- The leaves of a subtree, in depth-first (left to right) order. -/
def leaves : BTree α → List (α × Nat)
  | .leaf b i => [(b, i)]
  | .node _ l r => l.leaves ++ r.leaves

/-- Leaf count `N = size()`. -/
def numLeaves (t : BTree α) : Nat := t.leaves.length

end BTree

/-- The satisfied leaves of a spatial query: leaf indices of the leaves whose
bounding volume satisfies the predicate, in depth-first order.  This is the
contract of §4.2: "emits `callback(predicate, leaf_index)` exactly once per
leaf whose bounding volume satisfies the predicate". -/
def satLeaves {α : Type} (p : α → Bool) (t : BTree α) : List Nat :=
  (t.leaves.filter fun bi => p bi.1).map (·.2)

/-- The `(leaf_index, distance)` pairs of all leaves of a tree, in
depth-first order. -/
def entriesT {α : Type} (dist : α → D) (t : BTree α) : List Entry :=
  t.leaves.map fun bi => (bi.2, dist bi.1)

/-- A spatial predicate is admissible for a BVH (§3 "BVH monotonicity …
the correctness of pruning relies on this", §8 "for all admissible BVHs and
predicates") when a bounding volume satisfying it forces its parent's
(enclosing) bounding volume to satisfy it as well. -/
def monoPB {α : Type} (p : α → Bool) : BTree α → Bool
  | .leaf _ _ => true
  | .node b l r =>
      (!(p l.bv) || p b) && (!(p r.bv) || p b) && monoPB p l && monoPB p r

/-- Distance admissibility (§4.3.4): `distance(g, bv(parent)) ≤
distance(g, bv(child))`. -/
def monoDB {α : Type} (dist : α → D) : BTree α → Bool
  | .leaf _ _ => true
  | .node b l r =>
      decide (dist b ≤ dist l.bv) && decide (dist b ≤ dist r.bv)
        && monoDB dist l && monoDB dist r

/-- All distances in the tree are finite (a genuine real-valued metric; the
floating-point distance can also be `+∞`). -/
def finB {α : Type} (dist : α → D) : BTree α → Bool
  | .leaf b _ => decide (dist b ≠ ⊤)
  | .node b l r => decide (dist b ≠ ⊤) && finB dist l && finB dist r

/-- The distance metric is non-negative (§4.3.4). -/
def nonnegB {α : Type} (dist : α → D) : BTree α → Bool
  | .leaf b _ => decide ((0 : D) ≤ dist b)
  | .node b l r => decide ((0 : D) ≤ dist b) && nonnegB dist l && nonnegB dist r

/-! ## Node encodings

The C++ code supports two node encodings, `NodeWithTwoChildren` and
`NodeWithLeftChildAndRope`, selected by a tag.  A BVH instance is an array of
nodes addressed by ids through `getNodePtr`. -/

/-- A two-child node (`NodeWithTwoChildrenTag`): a leaf stores its
permutation index, an internal node stores the ids of its two children.  The
nearest kernel also consumes rope nodes through `getRightChild`; to share its
one definition we use this type as the uniform node view, with the right
child id already resolved (field for two-child nodes, `rope(left_child)` for
rope nodes, see `ropeInfo`). -/
inductive NodeInfo (α : Type) where
  | leaf (bv : α) (leafIdx : Nat)
  | inner (bv : α) (left right : Nat)
deriving Repr, DecidableEq

namespace NodeInfo

variable {α : Type}

/-- `getBoundingVolume`. -/
def bv : NodeInfo α → α
  | .leaf b _ => b
  | .inner b _ _ => b

/-- `isLeaf()`. -/
def isLeaf : NodeInfo α → Bool
  | .leaf _ _ => true
  | .inner _ _ _ => false

/-- `getLeafPermutationIndex()`; only meaningful on leaves. -/
def leafIndex : NodeInfo α → Nat
  | .leaf _ i => i
  | .inner _ _ _ => 0

end NodeInfo

/-- A node of the rope encoding (`NodeWithLeftChildAndRopeTag`): the rope
points to the next node of the DFS when the subtree is skipped;
`none` models `ROPE_SENTINEL`. -/
inductive NodeR (α : Type) where
  | leaf (bv : α) (leafIdx : Nat) (rope : Option Nat)
  | inner (bv : α) (leftChild : Nat) (rope : Option Nat)
deriving Repr, DecidableEq

namespace NodeR

variable {α : Type}

def bv : NodeR α → α
  | .leaf b _ _ => b
  | .inner b _ _ => b

def isLeaf : NodeR α → Bool
  | .leaf _ _ _ => true
  | .inner _ _ _ => false

def leafIndex : NodeR α → Nat
  | .leaf _ i _ => i
  | .inner _ _ _ => 0

def rope : NodeR α → Option Nat
  | .leaf _ _ rp => rp
  | .inner _ _ rp => rp

end NodeR

/-- The node accessor of a two-child BVH: `getNodePtr` is a list lookup, an
out-of-range id (undefined behaviour in C++) yields `none`. -/
def acc2 {α : Type} (ns : List (NodeInfo α)) : Nat → Option (NodeInfo α) :=
  fun i => ns.get? i

/-- The node accessor of a rope BVH, with the right child of an internal node
resolved as in `TreeTraversal<NearestPredicateTag>::getRightChild`:
`bvh_.getNodePtr(node->left_child)->rope`.  A sentinel rope there (which the
C++ would pass on to `getNodePtr` as `-1`) is mapped to the always-invalid id
`ns.length`. -/
def ropeInfo {α : Type} (ns : List (NodeR α)) : Nat → Option (NodeInfo α) :=
  fun i =>
    match ns.get? i with
    | some (.leaf b j _) => some (.leaf b j)
    | some (.inner b lc _) =>
        match ns.get? lc with
        | some nl => some (.inner b lc ((nl.rope).getD ns.length))
        | none => none
    | none => none

/-- `RepA acc i t`: node id `i`, dereferenced through the node accessor
`acc`, is the root of a well-formed encoding of the logical subtree `t`. -/
inductive RepA {α : Type} (acc : Nat → Option (NodeInfo α)) : Nat → BTree α → Prop where
  | leaf {i : Nat} {b : α} {j : Nat} :
      acc i = some (.leaf b j) → RepA acc i (.leaf b j)
  | node {i lc rc : Nat} {b : α} {l r : BTree α} :
      acc i = some (.inner b lc rc) → RepA acc lc l → RepA acc rc r →
      RepA acc i (.node b l r)

/-- `RepR ns i rp t`: in the rope array `ns`, node id `i` is the root of a
well-formed rope encoding of the logical subtree `t` whose exit rope (the
node visited next once the subtree has been fully visited or skipped) is
`rp`.  This is the §3 rope invariant: "following ropes from root without any
pruning visits every node exactly once in DFS order and terminates at
SENTINEL". -/
inductive RepR {α : Type} (ns : List (NodeR α)) : Nat → Option Nat → BTree α → Prop where
  | leaf {i : Nat} {b : α} {j : Nat} {rp : Option Nat} :
      ns.get? i = some (.leaf b j rp) → RepR ns i rp (.leaf b j)
  | node {i lc j : Nat} {rp : Option Nat} {b : α} {l r : BTree α} :
      ns.get? i = some (.inner b lc rp) →
      RepR ns lc (some j) l → RepR ns j rp r →
      RepR ns i rp (.node b l r)

/-! ## The bounded max-heap (modelled from the spec)

`ArborX_DetailsPriorityQueue.hpp` is not part of this repository snapshot.
Modelled from the spec, §4.4: a fixed-capacity max-heap over
`(leaf_index, distance)` entries ordered by distance, stored in the
caller-provided scratch view, with `push`, `pop_push` (replace top), `top`,
`size` and `data`.  We realise the abstract heap deterministically as its
backing store kept sorted by nondecreasing distance, so `top` (the farthest
entry) is the last element; `pop_push` drops the last element and inserts the
new one. -/

/-- Insert an entry into a distance-sorted store (`push`). -/
def hpush (x : Entry) : List Entry → List Entry
  | [] => [x]
  | y :: ys => if x.2 < y.2 then x :: y :: ys else y :: hpush x ys

/-- Distance of the farthest entry: `top().second` (junk `0` on an empty
heap, on which the code never calls `top`). -/
def lastD (h : List Entry) : D := ((h.getLast?).getD (0, 0)).2

/-- Modelled from the spec, §4.3.3: "sort the heap's backing array in
ascending distance order".  Realised as an insertion sort. -/
def sortHeap (h : List Entry) : List Entry := h.foldr hpush []

/-- One leaf insertion of the nearest kernel (source lines 374–397): `push`
when the heap is not full, `pop_push` otherwise, then tighten the radius to
`heap.top().second` whenever the heap is full afterwards. -/
def leafUpdate (k : Nat) (e : Entry) (h : List Entry) (r : D) :
    List Entry × D :=
  let h' := if h.length < k then hpush e h else hpush e h.dropLast
  (h', if h'.length = k then lastD h' else r)

/-! ## Spatial traversal kernels -/

/-- Degenerate one-leaf spatial kernel
(`TreeTraversal<SpatialPredicateTag>::operator()(OneLeafTree, int)`): if the
root's bounding volume satisfies the predicate, emit `(predicate, 0)`. -/
def spatialOneLeaf {α : Type} (p : α → Bool) (rootBV : α) : List Nat :=
  if p rootBV then [0] else []

/-- Stack-based spatial traversal
(`TreeTraversal<SpatialPredicateTag>::operator()(int)`, two-child variant).
State: the current node id, the deferred-node stack (`Node const *stack[64]`,
the bottom `nullptr` sentinel is the empty list) and the emissions so far.
Fuel bounds the number of loop iterations; `none` models a run that exhausts
the fuel or dereferences an invalid node (undefined behaviour). -/
def stackLoop {α : Type} (p : α → Bool) (acc : Nat → Option (NodeInfo α)) :
    Nat → Nat → List Nat → List Nat → Option (List Nat)
  | 0, _, _, _ => none
  | fuel + 1, cur, stack, out =>
      match acc cur with
      | some (.inner _ lc rc) =>
          match acc lc, acc rc with
          | some nl, some nr =>
              let overlapL := p nl.bv
              let overlapR := p nr.bv
              let out₁ := if overlapL && nl.isLeaf then out ++ [nl.leafIndex] else out
              let out₂ := if overlapR && nr.isLeaf then out₁ ++ [nr.leafIndex] else out₁
              let travL := overlapL && !nl.isLeaf
              let travR := overlapR && !nr.isLeaf
              if travL || travR then
                stackLoop p acc fuel
                  (if travL then lc else rc)
                  (if travL && travR then rc :: stack else stack) out₂
              else
                match stack with
                | [] => some out₂
                | j :: rest => stackLoop p acc fuel j rest out₂
          | _, _ => none
      | _ => none

/-- Entry point of the stack-based spatial kernel: start at the root with the
sentinel-only stack and no emissions. -/
def stackQuery {α : Type} (p : α → Bool) (acc : Nat → Option (NodeInfo α))
    (root : Nat) (fuel : Nat) : Option (List Nat) :=
  stackLoop p acc fuel root [] []

/-- Rope-based spatial traversal
(`TreeTraversal<SpatialPredicateTag>::operator()(int)`, rope variant).
`next` is the single integer of per-query state; the do-while loop runs until
`next == ROPE_SENTINEL`. -/
def ropeLoop {α : Type} (p : α → Bool) (ns : List (NodeR α)) :
    Nat → Nat → List Nat → Option (List Nat)
  | 0, _, _ => none
  | fuel + 1, next, out =>
      match ns.get? next with
      | none => none
      | some nd =>
          let step : Option Nat × List Nat :=
            if p nd.bv then
              if nd.isLeaf then (nd.rope, out ++ [nd.leafIndex])
              else
                match nd with
                | .inner _ lc _ => (some lc, out)
                | .leaf _ _ rp => (rp, out)
            else (nd.rope, out)
          match step.1 with
          | none => some step.2
          | some j => ropeLoop p ns fuel j step.2

/-- A rope-encoded BVH as the kernels see it: the node array and the root id
returned by `getRoot()`. -/
structure BVHR (α : Type) where
  nodes : List (NodeR α)
  root : Nat

/-- Entry point of the rope-based spatial kernel.  The source (line 143)
hard-codes `int next = 0; // start with root` instead of asking the BVH for
its root. -/
def ropeQuery {α : Type} (p : α → Bool) (b : BVHR α) (fuel : Nat) :
    Option (List Nat) :=
  ropeLoop p b.nodes fuel 0 []

/-- Modelled from the spec: §4.2.2 step 1 of the rope traversal algorithm
("`next = root_id`") starts from the BVH's root id; the remaining steps are
the loop shared with the implementation.  This is the reference point for the
refinement claim about the hard-coded start id. -/
def ropeQuerySpec {α : Type} (p : α → Bool) (b : BVHR α) (fuel : Nat) :
    Option (List Nat) :=
  ropeLoop p b.nodes fuel b.root []

/-! ## Nearest traversal kernel -/

/-- Degenerate one-leaf nearest kernel
(`TreeTraversal<NearestPredicateTag>::operator()(OneLeafTree, int)`): if
`k < 1` return zero results, else emit `(predicate, 0, distance(g, bv(root)))`. -/
def nearestOneLeaf {α : Type} (k : Int) (dist : α → D) (rootBV : α) :
    List Entry :=
  if k < 1 then [] else [(0, dist rootBV)]

/-- The per-query state of the nearest traversal loop (source lines 342–357):
current node, its (possibly deferred) distance, the deferred-sibling stack
with the per-stack distances, the heap contents and the pruning radius. -/
structure NState where
  cur : Nat
  dcur : D
  stack : List (Nat × D)
  heap : List Entry
  radius : D
deriving Repr, DecidableEq

/-- Result of one iteration of the nearest loop. -/
inductive StepRes (σ : Type) where
  | next (s : σ)
  | done (out : List Entry)
  | stuck
deriving Repr, DecidableEq

/-- Popping a deferred node (with its stored distance) off the stack; an
empty stack is the `nullptr` sentinel, so the loop exits, sorts the heap's
backing array and emits the callbacks in sorted order (lines 436–445). -/
def popStep (stack : List (Nat × D)) (h : List Entry) (r : D) :
    StepRes NState :=
  match stack with
  | [] => .done (sortHeap h)
  | (j, d) :: rest => .next ⟨j, d, rest, h, r⟩

/-- One iteration of the nearest traversal loop (source lines 359–434,
stack-distance variant, i.e. without `__CUDA_ARCH__`): if the current
distance has not been overtaken by the radius, fetch both children (the right
one through `getRightChild`), insert each leaf child closer than the current
radius into the heap (tightening the radius after each insertion — the right
child's test reads the radius already tightened by the left child's
insertion), then descend to the nearer qualifying child, deferring the other
on the stack, or pop. -/
def nearestStep {α : Type} (acc : Nat → Option (NodeInfo α)) (dist : α → D)
    (k : Nat) (s : NState) : StepRes NState :=
  if s.dcur < s.radius then
    match acc s.cur with
    | some (.inner _ lc rc) =>
        match acc lc, acc rc with
        | some nl, some nr =>
            let dl := dist nl.bv
            let dr := dist nr.bv
            let hr₁ :=
              if dl < s.radius && nl.isLeaf then
                leafUpdate k (nl.leafIndex, dl) s.heap s.radius
              else (s.heap, s.radius)
            let hr₂ :=
              if dr < hr₁.2 && nr.isLeaf then
                leafUpdate k (nr.leafIndex, dr) hr₁.1 hr₁.2
              else hr₁
            let travL := dl < hr₂.2 && !nl.isLeaf
            let travR := dr < hr₂.2 && !nr.isLeaf
            if travL || travR then
              let goL := travL && (decide (dl ≤ dr) || !travR)
              .next ⟨if goL then lc else rc,
                     if goL then dl else dr,
                     if travL && travR then
                       (if goL then (rc, dr) else (lc, dl)) :: s.stack
                     else s.stack,
                     hr₂.1, hr₂.2⟩
            else popStep s.stack hr₂.1 hr₂.2
        | _, _ => .stuck
    | _ => .stuck
  else popStep s.stack s.heap s.radius

/-- The nearest traversal loop: iterate `nearestStep` with fuel. -/
def nearestRun {α : Type} (acc : Nat → Option (NodeInfo α)) (dist : α → D)
    (k : Nat) : Nat → NState → Option (List Entry)
  | 0, _ => none
  | fuel + 1, s =>
      match nearestStep acc dist k s with
      | .next s' => nearestRun acc dist k fuel s'
      | .done out => some out
      | .stuck => none

/-- The initial state of a nearest query (lines 342–357): current node is the
root, `distance_node = 0`, the stack holds only the sentinel, the heap is
empty and the radius is `+∞`. -/
def initState (root : Nat) : NState := ⟨root, 0, [], [], ⊤⟩

/-- Entry point of the general nearest kernel
(`TreeTraversal<NearestPredicateTag>::operator()(int)`): `k < 1` returns zero
results before any traversal. -/
def nearestQuery {α : Type} (acc : Nat → Option (NodeInfo α)) (dist : α → D)
    (k : Int) (root : Nat) (fuel : Nat) : Option (List Entry) :=
  if k < 1 then some []
  else nearestRun acc dist k.toNat fuel (initState root)

/-! ### The `__CUDA_ARCH__` variant: no `stack_distance` array

On pop, the distance of the popped node is recomputed as
`distance(g, bv(node))` instead of being read back from `stack_distance`
(source lines 406–413). -/

/-- State of the recompute-on-pop variant: the stack holds node ids only. -/
structure CState where
  cur : Nat
  dcur : D
  stack : List Nat
  heap : List Entry
  radius : D
deriving Repr, DecidableEq

/-- Popping in the recompute-on-pop variant: if the popped node is not the
sentinel, recompute `distance_node = distance(node)`, which dereferences the
node. -/
def popStepCuda {α : Type} (acc : Nat → Option (NodeInfo α)) (dist : α → D)
    (stack : List Nat) (h : List Entry) (r : D) : StepRes CState :=
  match stack with
  | [] => .done (sortHeap h)
  | j :: rest =>
      match acc j with
      | some nj => .next ⟨j, dist nj.bv, rest, h, r⟩
      | none => .stuck

/-- One iteration of the nearest loop, recompute-on-pop variant.  Identical
to `nearestStep` except that the stack stores no distances. -/
def nearestStepCuda {α : Type} (acc : Nat → Option (NodeInfo α))
    (dist : α → D) (k : Nat) (s : CState) : StepRes CState :=
  if s.dcur < s.radius then
    match acc s.cur with
    | some (.inner _ lc rc) =>
        match acc lc, acc rc with
        | some nl, some nr =>
            let dl := dist nl.bv
            let dr := dist nr.bv
            let hr₁ :=
              if dl < s.radius && nl.isLeaf then
                leafUpdate k (nl.leafIndex, dl) s.heap s.radius
              else (s.heap, s.radius)
            let hr₂ :=
              if dr < hr₁.2 && nr.isLeaf then
                leafUpdate k (nr.leafIndex, dr) hr₁.1 hr₁.2
              else hr₁
            let travL := dl < hr₂.2 && !nl.isLeaf
            let travR := dr < hr₂.2 && !nr.isLeaf
            if travL || travR then
              let goL := travL && (decide (dl ≤ dr) || !travR)
              .next ⟨if goL then lc else rc,
                     if goL then dl else dr,
                     if travL && travR then
                       (if goL then rc else lc) :: s.stack
                     else s.stack,
                     hr₂.1, hr₂.2⟩
            else popStepCuda acc dist s.stack hr₂.1 hr₂.2
        | _, _ => .stuck
    | _ => .stuck
  else popStepCuda acc dist s.stack s.heap s.radius

/-- The recompute-on-pop nearest traversal loop. -/
def nearestRunCuda {α : Type} (acc : Nat → Option (NodeInfo α))
    (dist : α → D) (k : Nat) : Nat → CState → Option (List Entry)
  | 0, _ => none
  | fuel + 1, s =>
      match nearestStepCuda acc dist k s with
      | .next s' => nearestRunCuda acc dist k fuel s'
      | .done out => some out
      | .stuck => none

/-! ## Dispatcher

The `TreeTraversal` constructors: an empty BVH launches nothing, a one-leaf
BVH launches the degenerate kernel, otherwise the general kernel runs once
per query. -/

/-- A two-child BVH as the dispatcher sees it: the node array, the root id
and the leaf count returned by `size()` (`empty()` is `size() == 0`). -/
structure BVH2 (α : Type) where
  nodes : List (NodeInfo α)
  root : Nat
  count : Nat

/-- One-leaf spatial kernel on a BVH: evaluates the predicate on
`getBoundingVolume(getRoot())`. -/
def spatialOneLeafQuery {α : Type} (p : α → Bool) (b : BVH2 α) :
    Option (List Nat) :=
  (acc2 b.nodes b.root).map fun info => spatialOneLeaf p info.bv

/-- One-leaf nearest kernel on a BVH. -/
def nearestOneLeafQuery {α : Type} (k : Int) (dist : α → D) (b : BVH2 α) :
    Option (List Entry) :=
  (acc2 b.nodes b.root).map fun info => nearestOneLeaf k dist info.bv

/-- The spatial dispatcher (`TreeTraversal<SpatialPredicateTag>`'s
constructor): one output list per query predicate. -/
def traverseSpatial {α : Type} (b : BVH2 α) (preds : List (α → Bool))
    (fuel : Nat) : List (Option (List Nat)) :=
  if b.count = 0 then preds.map fun _ => some []
  else if b.count = 1 then preds.map fun p => spatialOneLeafQuery p b
  else preds.map fun p => stackQuery p (acc2 b.nodes) b.root fuel

/-- The nearest dispatcher (`TreeTraversal<NearestPredicateTag>`'s
constructor): a nearest predicate carries its count `k` and its geometry
(represented by the distance function the geometry induces). -/
def traverseNearest {α : Type} (b : BVH2 α) (preds : List (Int × (α → D)))
    (fuel : Nat) : List (Option (List Entry)) :=
  if b.count = 0 then preds.map fun _ => some []
  else if b.count = 1 then preds.map fun q => nearestOneLeafQuery q.1 q.2 b
  else preds.map fun q => nearestQuery (acc2 b.nodes) q.2 q.1 b.root fuel

/-! ## Invariants and proof devices -/

/-- The heap's backing store is sorted by nondecreasing distance. -/
def HSorted (h : List Entry) : Prop :=
  List.Pairwise (fun a b : Entry => a.2 ≤ b.2) h

/-- The heap/radius invariant of the nearest kernel: the store is sorted, it
never exceeds the capacity `k`, the radius is still `+∞` while fewer than `k`
neighbours have been found, and equals `top().second` (the current kth
distance) once the heap is full. -/
def HeapCore (k : Nat) (h : List Entry) (r : D) : Prop :=
  HSorted h ∧ h.length ≤ k ∧ (h.length < k → r = ⊤) ∧
    (h.length = k → r = lastD h)

/-- The emissions of one run of the stack-based spatial kernel on (the
encoding of) an internal node, in emission order: leaf children are emitted
while their parent is processed (left first), then the left internal child's
subtree is fully traversed before the deferred right internal child. -/
def sEmit {α : Type} (p : α → Bool) : BTree α → List Nat
  | .leaf _ _ => []
  | .node _ l r =>
      (if p l.bv && l.isLeaf then [l.leafIndex] else [])
        ++ (if p r.bv && r.isLeaf then [r.leafIndex] else [])
        ++ (if p l.bv && !l.isLeaf then sEmit p l else [])
        ++ (if p r.bv && !r.isLeaf then sEmit p r else [])

/-- Total node count of the deferred stack (termination measure). -/
def stSize {α : Type} (st : List (BTree α × D)) : Nat :=
  (st.map fun td => td.1.tsize).sum

/-- Node count of a spatial deferred stack. -/
def spSize {α : Type} (st : List (BTree α)) : Nat :=
  (st.map BTree.tsize).sum

/-- The array-side stack and the tree-side stack of the nearest kernel are
pointwise related: same stored distances, and each stored id encodes the
corresponding deferred subtree. -/
def StackRel {α : Type} (acc : Nat → Option (NodeInfo α))
    (sa : List (Nat × D)) (ss : List (BTree α × D)) : Prop :=
  List.Forall₂ (fun (jd : Nat × D) (td : BTree α × D) =>
    RepA acc jd.1 td.1 ∧ jd.2 = td.2) sa ss

/-- The multiset of `(leaf_index, distance)` entries still pending in the
traversal: the leaves of the current subtree and of every deferred
subtree. -/
def pendingE {α : Type} (dist : α → D) (nd : BTree α)
    (ss : List (BTree α × D)) : Multiset Entry :=
  (entriesT dist nd : Multiset Entry)
    + (ss.map fun td => (entriesT dist td.1 : Multiset Entry)).sum

/-- A deferred pair `(t, d)` is admissible when the stored distance `d` lower
bounds the distance of every leaf of `t` (the pruning-soundness premise). -/
def lbOK {α : Type} (dist : α → D) (td : BTree α × D) : Prop :=
  ∀ e ∈ entriesT dist td.1, td.2 ≤ e.2

/-- The multiset of leaf entries of every deferred subtree on the stack. -/
def stackEntries {α : Type} (dist : α → D) (ss : List (BTree α × D)) :
    Multiset Entry :=
  (ss.map fun td => (entriesT dist td.1 : Multiset Entry)).sum

/-- Continuation predicate for runs of the rope loop: starting from the exit
rope `rp` with emissions `a`, the loop can go on to produce `res` (`rp =
none` is the sentinel: the loop stops and returns `a`). -/
def ropeCont {α : Type} (p : α → Bool) (ns : List (NodeR α))
    (rp : Option Nat) (a res : List Nat) : Prop :=
  match rp with
  | none => res = a
  | some j => ∃ fuel, ropeLoop p ns fuel j a = some res

/-- A concrete well-formed rope-encoded two-leaf BVH whose root node has
id 2 (nodes listed in reverse DFS order): node 2 is the root, node 1 the
first leaf (rope to node 0), node 0 the last leaf (sentinel rope). -/
def badRopeBVH : BVHR ℚ :=
  ⟨[.leaf 0 1 .none, .leaf 0 0 (.some 0), .inner 0 1 .none], 2⟩

/-! ## Basic facts about trees -/

theorem BTree.tsize_pos {α : Type} (t : BTree α) : 1 ≤ t.tsize := by
  cases t with
  | leaf b i => simp [tsize]
  | node b l r => simp only [tsize]; omega

theorem BTree.numLeaves_pos {α : Type} (t : BTree α) : 1 ≤ t.numLeaves := by
  induction t with
  | leaf b i => simp [numLeaves, leaves]
  | node b l r ihl ihr =>
      simp only [numLeaves, leaves, List.length_append] at *
      omega

theorem entriesT_node {α : Type} (dist : α → D) (b : α) (l r : BTree α) :
    entriesT dist (.node b l r) = entriesT dist l ++ entriesT dist r := by
  simp [entriesT, BTree.leaves]

theorem entriesT_length {α : Type} (dist : α → D) (t : BTree α) :
    (entriesT dist t).length = t.numLeaves := by
  simp [entriesT, BTree.numLeaves]

/-! ## Heap lemmas -/

theorem hpush_perm (x : Entry) (h : List Entry) : (hpush x h).Perm (x :: h) := by
  induction h with
  | nil => exact List.Perm.refl _
  | cons y ys ih =>
      unfold hpush
      split
      · exact List.Perm.refl _
      · exact (ih.cons y).trans (List.Perm.swap x y ys)

theorem hpush_length (x : Entry) (h : List Entry) :
    (hpush x h).length = h.length + 1 := by
  simpa using (hpush_perm x h).length_eq

theorem hpush_ne_nil (x : Entry) (h : List Entry) : hpush x h ≠ [] := by
  intro hc
  have := hpush_length x h
  rw [hc] at this
  simp at this

theorem mem_hpush {y x : Entry} {h : List Entry} :
    y ∈ hpush x h ↔ y = x ∨ y ∈ h := by
  simpa using (hpush_perm x h).mem_iff

theorem hpush_sorted {x : Entry} {h : List Entry} (hs : HSorted h) :
    HSorted (hpush x h) := by
  induction h with
  | nil => simp [hpush, HSorted]
  | cons y ys ih =>
      obtain ⟨hy, hys⟩ := List.pairwise_cons.1 hs
      unfold HSorted hpush
      split
      next hlt =>
        refine List.Pairwise.cons ?_ hs
        intro z hz
        rcases List.mem_cons.1 hz with rfl | hz'
        · exact le_of_lt hlt
        · exact (le_of_lt hlt).trans (hy z hz')
      next hge =>
        refine List.Pairwise.cons ?_ (ih hys)
        intro z hz
        rcases mem_hpush.1 hz with rfl | hz'
        · exact le_of_not_lt hge
        · exact hy z hz'

theorem sortHeap_perm (h : List Entry) : (sortHeap h).Perm h := by
  induction h with
  | nil => exact List.Perm.refl _
  | cons y ys ih => exact (hpush_perm y (sortHeap ys)).trans (ih.cons y)

theorem sortHeap_sorted (h : List Entry) : HSorted (sortHeap h) := by
  induction h with
  | nil => simp [sortHeap, HSorted]
  | cons y ys ih => exact hpush_sorted ih

theorem lastD_mem {h : List Entry} (hne : h ≠ []) :
    ((h.getLast?).getD (0, 0)) ∈ h := by
  rw [List.getLast?_eq_getLast h hne]
  exact List.getLast_mem hne

theorem le_lastD_of_sorted {h : List Entry} (hs : HSorted h) :
    ∀ y ∈ h, y.2 ≤ lastD h := by
  induction h with
  | nil => simp
  | cons a l ih =>
      intro y hy
      obtain ⟨ha, hl'⟩ := List.pairwise_cons.1 hs
      cases l with
      | nil =>
          rcases List.mem_singleton.1 hy with rfl
          simp [lastD]
      | cons b m =>
          have hl : lastD (a :: b :: m) = lastD (b :: m) := by
            simp [lastD, List.getLast?_cons_cons]
          rcases List.mem_cons.1 hy with rfl | hy'
          · rw [hl]
            exact ha _ (lastD_mem (by simp))
          · rw [hl]
            exact ih hl' y hy'

theorem lastD_le_of_forall {h : List Entry} {c : D} (hne : h ≠ [])
    (hall : ∀ y ∈ h, y.2 ≤ c) : lastD h ≤ c :=
  hall _ (lastD_mem hne)

theorem dropLast_sorted {h : List Entry} (hs : HSorted h) :
    HSorted h.dropLast :=
  List.Pairwise.sublist (List.dropLast_sublist h) hs

/-- Core facts about one heap insertion with radius tightening: the
heap/radius invariant is preserved, the radius never increases, and the heap
grows to `min (previous size + 1) k`. -/
theorem leafUpdate_core {k : Nat} (hk : 1 ≤ k) (e : Entry) {h : List Entry}
    {r : D} (hc : HeapCore k h r) (he : e.2 < r) :
    HeapCore k (leafUpdate k e h r).1 (leafUpdate k e h r).2 ∧
      (leafUpdate k e h r).2 ≤ r ∧
      (leafUpdate k e h r).1.length = min (h.length + 1) k := by
  obtain ⟨hs, hlen, hlt, heq⟩ := hc
  unfold leafUpdate
  by_cases hfull : h.length < k
  · simp only [hfull, if_true]
    have hlen' : (hpush e h).length = h.length + 1 := hpush_length e h
    by_cases hk' : (hpush e h).length = k
    · simp only [hk', if_true]
      refine ⟨⟨hpush_sorted hs, le_of_eq hk', fun hcon => ?_, fun _ => rfl⟩,
        ?_, by omega⟩
      · omega
      · rw [hlt hfull]; exact le_top
    · simp only [hk', if_false]
      exact ⟨⟨hpush_sorted hs, by omega, fun _ => hlt hfull,
        fun hcon => absurd hcon hk'⟩, le_refl r, by omega⟩
  · have hlK : h.length = k := le_antisymm hlen (not_lt.1 hfull)
    have hne : h ≠ [] := by
      intro hc0; rw [hc0] at hlK; simp at hlK; omega
    have hlen' : (hpush e h.dropLast).length = k := by
      rw [hpush_length, List.length_dropLast]; omega
    simp only [hfull, if_false, hlen', if_true]
    have hs' : HSorted (hpush e h.dropLast) := hpush_sorted (dropLast_sorted hs)
    refine ⟨⟨hs', le_of_eq hlen', fun hcon => by omega, fun _ => rfl⟩, ?_, by omega⟩
    rw [heq hlK]
    apply lastD_le_of_forall (hpush_ne_nil _ _)
    intro y hy
    rcases mem_hpush.1 hy with rfl | hy'
    · exact le_of_lt (lt_of_lt_of_le he (le_of_eq (heq hlK)))
    · exact le_lastD_of_sorted hs y (List.dropLast_subset _ hy')

/-- Multiset accounting of a non-full heap insertion. -/
theorem leafUpdate_perm_small {k : Nat} {h : List Entry} {r : D} {e : Entry}
    (hfull : h.length < k) :
    ((leafUpdate k e h r).1).Perm (e :: h) := by
  unfold leafUpdate
  simp only [hfull, if_true]
  exact hpush_perm e h

/-- Multiset accounting of a full heap insertion (`pop_push`): the evicted
entry is the previous top. -/
theorem leafUpdate_perm_full {k : Nat} {h : List Entry} {r : D} {e : Entry}
    (hfull : ¬ h.length < k) (hne : h ≠ []) :
    ∃ b : Entry, b ∈ h ∧ b.2 = lastD h ∧
      ((leafUpdate k e h r).1 ++ [b]).Perm (e :: h) := by
  unfold leafUpdate
  simp only [hfull, if_false]
  refine ⟨h.getLast hne, List.getLast_mem hne, ?_, ?_⟩
  · simp [lastD, List.getLast?_eq_getLast h hne]
  · have hsplit : h.dropLast ++ [h.getLast hne] = h :=
      List.dropLast_append_getLast hne
    show (hpush e h.dropLast ++ [h.getLast hne]).Perm (e :: h)
    have p1 := (hpush_perm e h.dropLast).append_right [h.getLast hne]
    rw [List.cons_append, hsplit] at p1
    exact p1

/-! ## Spatial facts -/

theorem satLeaves_leaf {α : Type} (p : α → Bool) (b : α) (i : Nat) :
    satLeaves p (.leaf b i) = if p b then [i] else [] := by
  by_cases h : p b <;> simp [satLeaves, BTree.leaves, h]

theorem satLeaves_node {α : Type} (p : α → Bool) (b : α) (l r : BTree α) :
    satLeaves p (.node b l r) = satLeaves p l ++ satLeaves p r := by
  simp [satLeaves, BTree.leaves]

/-- Under predicate admissibility, a subtree whose root bounding volume is
rejected contains no satisfying leaf: this is why pruning is sound. -/
theorem monoPB_empty {α : Type} {p : α → Bool} :
    ∀ {t : BTree α}, monoPB p t = true → p t.bv = false →
      satLeaves p t = [] := by
  intro t
  induction t with
  | leaf b i =>
      intro _ hp
      simp [satLeaves_leaf, BTree.bv] at hp ⊢
      simp [hp]
  | node b l r ihl ihr =>
      intro hm hp
      simp only [monoPB, Bool.and_eq_true, Bool.or_eq_true, Bool.not_eq_true'] at hm
      obtain ⟨⟨⟨hml, hmr⟩, hl⟩, hr⟩ := hm
      simp only [BTree.bv] at hp
      rw [satLeaves_node]
      have hpl : p l.bv = false := by
        rcases hml with h | h
        · exact h
        · rw [hp] at h; cases h
      have hpr : p r.bv = false := by
        rcases hmr with h | h
        · exact h
        · rw [hp] at h; cases h
      rw [ihl hl hpl, ihr hr hpr]
      rfl

/-- A represented node id resolves to a node whose observable fields agree
with the subtree it encodes. -/
theorem RepA_proj {α : Type} {acc : Nat → Option (NodeInfo α)} {i : Nat}
    {t : BTree α} (h : RepA acc i t) :
    ∃ info, acc i = some info ∧ info.bv = t.bv ∧
      info.isLeaf = t.isLeaf ∧ info.leafIndex = t.leafIndex := by
  cases h with
  | leaf ha => exact ⟨_, ha, rfl, rfl, rfl⟩
  | node ha hl hr => exact ⟨_, ha, rfl, rfl, rfl⟩

/-- The emission-order device is a permutation of the satisfied leaves, for
admissible predicates on internal nodes. -/
theorem sEmit_perm {α : Type} {p : α → Bool} :
    ∀ {t : BTree α}, monoPB p t = true → t.isLeaf = false →
      (sEmit p t).Perm (satLeaves p t) := by
  intro t
  induction t with
  | leaf b i => intro _ hL; cases hL
  | node b l r ihl ihr =>
      intro hm _
      simp only [monoPB, Bool.and_eq_true] at hm
      obtain ⟨⟨⟨_, _⟩, hml⟩, hmr⟩ := hm
      rw [← Multiset.coe_eq_coe] at *
      show ((sEmit p (.node b l r) : List Nat) : Multiset Nat)
        = ((satLeaves p (.node b l r) : List Nat) : Multiset Nat)
      rw [satLeaves_node]
      simp only [sEmit, ← Multiset.coe_add]
      have hL : (((if p l.bv && l.isLeaf then [l.leafIndex] else [])
            ++ (if p l.bv && !l.isLeaf then sEmit p l else []) : List Nat)
            : Multiset Nat)
          = ((satLeaves p l : List Nat) : Multiset Nat) := by
        cases hll : l.isLeaf with
        | true =>
            cases l with
            | leaf bb ii =>
                by_cases hp : p bb <;>
                  simp [BTree.bv, BTree.isLeaf, BTree.leafIndex,
                    satLeaves_leaf, hp]
            | node bb ll rr => cases hll
        | false =>
            cases hpl : p l.bv with
            | false =>
                simp [hpl, monoPB_empty hml hpl]
            | true =>
                have := ihl hml hll
                simp [hpl, hll, this]
      have hR : (((if p r.bv && r.isLeaf then [r.leafIndex] else [])
            ++ (if p r.bv && !r.isLeaf then sEmit p r else []) : List Nat)
            : Multiset Nat)
          = ((satLeaves p r : List Nat) : Multiset Nat) := by
        cases hrr : r.isLeaf with
        | true =>
            cases r with
            | leaf bb ii =>
                by_cases hp : p bb <;>
                  simp [BTree.bv, BTree.isLeaf, BTree.leafIndex,
                    satLeaves_leaf, hp]
            | node bb ll rr => cases hrr
        | false =>
            cases hpr : p r.bv with
            | false =>
                simp [hpr, monoPB_empty hmr hpr]
            | true =>
                have := ihr hmr hrr
                simp [hpr, hrr, this]
      rw [← Multiset.coe_add] at hL hR
      rw [← hL, ← hR]
      abel

theorem spSize_cons {α : Type} (s : BTree α) (ss : List (BTree α)) :
    spSize (s :: ss) = s.tsize + spSize ss := by
  simp [spSize]

theorem append_ite_singleton {γ : Type} (c : Bool) (out : List γ) (x : γ) :
    (if c = true then out ++ [x] else out)
      = out ++ (if c = true then [x] else []) := by
  cases c <;> simp

/-- Main lemma for the stack-based spatial kernel: from a represented
internal node, with a stack of represented deferred internal siblings, some
fuel completes the traversal, whose output extends the emitted prefix with
the current subtree's emissions followed by those of each deferred subtree in
pop order. -/
theorem stackLoop_run {α : Type} (p : α → Bool)
    (acc : Nat → Option (NodeInfo α)) :
    ∀ (n : Nat) (t : BTree α) (cur : Nat) (stack : List Nat)
      (ss : List (BTree α)) (out : List Nat),
      t.tsize + spSize ss ≤ n →
      RepA acc cur t → t.isLeaf = false →
      List.Forall₂ (fun j s => RepA acc j s ∧ s.isLeaf = false) stack ss →
      ∃ fuel, stackLoop p acc fuel cur stack out =
        some (out ++ sEmit p t ++ (ss.map (sEmit p)).flatten) := by
  intro n
  induction n with
  | zero =>
      intro t cur stack ss out hn _ _ _
      have := t.tsize_pos
      omega
  | succ n ih =>
      intro t cur stack ss out hn hrep hint hst
      cases t with
      | leaf bb ii => cases hint
      | node b l r =>
          cases hrep with
          | node hacc hrl hrr =>
            rename_i lc rc
            obtain ⟨nl, hal, hbvl, hisl, hidxl⟩ := RepA_proj hrl
            obtain ⟨nr, har, hbvr, hisr, hidxr⟩ := RepA_proj hrr
            rw [BTree.tsize] at hn
            cases htL : (p l.bv && !l.isLeaf) with
            | true =>
                simp only [Bool.and_eq_true, Bool.not_eq_true'] at htL
                obtain ⟨hpl, hlL⟩ := htL
                cases htR : (p r.bv && !r.isLeaf) with
                | true =>
                    simp only [Bool.and_eq_true, Bool.not_eq_true'] at htR
                    obtain ⟨hpr, hrL⟩ := htR
                    obtain ⟨f, hf⟩ := ih l lc (rc :: stack) (r :: ss) out
                      (by rw [spSize_cons]; omega) hrl hlL
                      (List.Forall₂.cons ⟨hrr, hrL⟩ hst)
                    refine ⟨f + 1, ?_⟩
                    unfold stackLoop
                    rw [hacc]
                    dsimp only
                    rw [hal, har]
                    dsimp only
                    rw [hbvl, hisl, hbvr, hisr]
                    simp only [hpl, hpr, hlL, hrL, Bool.and_false,
                      Bool.false_eq_true, if_false, Bool.not_false,
                      Bool.and_true, Bool.true_and, if_true, Bool.or_self]
                    rw [hf]
                    simp [sEmit, hpl, hpr, hlL, hrL]
                | false =>
                    obtain ⟨f, hf⟩ := ih l lc stack ss
                      (out ++ (if p r.bv && r.isLeaf then [r.leafIndex]
                        else []))
                      (by omega) hrl hlL hst
                    refine ⟨f + 1, ?_⟩
                    unfold stackLoop
                    rw [hacc]
                    dsimp only
                    rw [hal, har]
                    dsimp only
                    rw [hbvl, hisl, hidxr, hbvr, hisr]
                    rw [append_ite_singleton]
                    simp only [hpl, hlL, htR, Bool.and_false,
                      Bool.false_eq_true, if_false, Bool.not_false,
                      Bool.and_true, Bool.true_and, if_true, Bool.or_false,
                      Bool.true_or]
                    rw [hf]
                    simp [sEmit, hpl, hlL, htR]
            | false =>
                cases htR : (p r.bv && !r.isLeaf) with
                | true =>
                    simp only [Bool.and_eq_true, Bool.not_eq_true'] at htR
                    obtain ⟨hpr, hrL⟩ := htR
                    obtain ⟨f, hf⟩ := ih r rc stack ss
                      (out ++ (if p l.bv && l.isLeaf then [l.leafIndex]
                        else []))
                      (by omega) hrr hrL hst
                    refine ⟨f + 1, ?_⟩
                    unfold stackLoop
                    rw [hacc]
                    dsimp only
                    rw [hal, har]
                    dsimp only
                    rw [hbvl, hisl, hidxl, hbvr, hisr]
                    rw [append_ite_singleton, append_ite_singleton]
                    simp only [hpr, hrL, htL, Bool.and_false,
                      Bool.false_eq_true, if_false, Bool.not_false,
                      Bool.and_true, Bool.true_and, if_true, Bool.or_false,
                      Bool.false_or, Bool.or_true, List.append_nil]
                    rw [hf]
                    simp [sEmit, hpr, hrL, htL]
                | false =>
                    cases hst with
                    | nil =>
                        refine ⟨1, ?_⟩
                        unfold stackLoop
                        rw [hacc]
                        dsimp only
                        rw [hal, har]
                        dsimp only
                        rw [hbvl, hisl, hidxl, hbvr, hisr, hidxr]
                        rw [append_ite_singleton, append_ite_singleton]
                        simp only [htL, htR, Bool.false_eq_true, if_false,
                          Bool.or_self]
                        simp [sEmit, htL, htR]
                    | cons hjs hrest =>
                        rename_i j s stackr ssr
                        obtain ⟨f, hf⟩ := ih s j stackr ssr
                          (out
                            ++ (if p l.bv && l.isLeaf then [l.leafIndex]
                              else [])
                            ++ (if p r.bv && r.isLeaf then [r.leafIndex]
                              else []))
                          (by rw [spSize_cons] at hn; omega) hjs.1 hjs.2
                          hrest
                        refine ⟨f + 1, ?_⟩
                        unfold stackLoop
                        rw [hacc]
                        dsimp only
                        rw [hal, har]
                        dsimp only
                        rw [hbvl, hisl, hidxl, hbvr, hisr, hidxr]
                        rw [append_ite_singleton, append_ite_singleton]
                        simp only [htL, htR, Bool.false_eq_true, if_false,
                          Bool.or_self]
                        rw [hf]
                        simp [sEmit, htL, htR]

/-- Main lemma for the rope-based spatial kernel: from a node representing
subtree `t` with exit rope `rp`, the loop emits exactly the satisfied leaves
of `t` in DFS order and then continues at `rp` (rope invariant, §4.2.2). -/
theorem ropeLoop_run {α : Type} (p : α → Bool) (ns : List (NodeR α)) :
    ∀ (t : BTree α) (i : Nat) (rp : Option Nat) (a res : List Nat),
      RepR ns i rp t → monoPB p t = true →
      ropeCont p ns rp (a ++ satLeaves p t) res →
      ∃ fuel, ropeLoop p ns fuel i a = some res := by
  intro t
  induction t with
  | leaf b idx =>
      intro i rp a res hrep _ hcont
      cases hrep with
      | leaf hget =>
          rw [satLeaves_leaf] at hcont
          cases rp with
          | none =>
              refine ⟨1, ?_⟩
              unfold ropeLoop
              rw [hget]
              dsimp only [NodeR.bv, NodeR.isLeaf, NodeR.leafIndex,
                NodeR.rope]
              rw [hcont]
              by_cases hp : p b <;> simp [hp]
          | some j =>
              obtain ⟨f, hf⟩ := hcont
              refine ⟨f + 1, ?_⟩
              unfold ropeLoop
              rw [hget]
              dsimp only [NodeR.bv, NodeR.isLeaf, NodeR.leafIndex,
                NodeR.rope]
              by_cases hp : p b <;> simp only [hp, if_true, if_false,
                Bool.true_eq_false, decide_eq_true_eq] <;>
                simp only [hp, if_true, if_false] at hf ⊢
              · exact hf
              · simpa using hf
  | node b l r ihl ihr =>
      intro i rp a res hrep hm hcont
      simp only [monoPB, Bool.and_eq_true] at hm
      obtain ⟨⟨⟨hmb, _⟩, hml⟩, hmr⟩ := hm
      cases hrep with
      | node hget hl hr =>
          rename_i lc j
          by_cases hp : p b
          · have hr' : ∃ fuel, ropeLoop p ns fuel j (a ++ satLeaves p l)
                = some res := by
              refine ihr j rp (a ++ satLeaves p l) res hr hmr ?_
              rw [satLeaves_node, ← List.append_assoc] at hcont
              exact hcont
            have hl' : ∃ fuel, ropeLoop p ns fuel lc a = some res :=
              ihl lc (some j) a res hl hml hr'
            obtain ⟨f, hf⟩ := hl'
            refine ⟨f + 1, ?_⟩
            unfold ropeLoop
            rw [hget]
            dsimp only [NodeR.bv, NodeR.isLeaf, NodeR.rope]
            simp only [hp, if_true, Bool.false_eq_true, if_false]
            exact hf
          · have hpf : p (BTree.node b l r).bv = false := by
              simp [BTree.bv]
              exact Bool.not_eq_true _ ▸ (by simpa using hp)
            have hsat : satLeaves p (.node b l r) = [] := by
              apply monoPB_empty ?_ hpf
              simp only [monoPB, Bool.and_eq_true]
              exact ⟨⟨⟨hmb, ‹(!p r.bv || p b) = true›⟩, hml⟩, hmr⟩
            rw [hsat, List.append_nil] at hcont
            cases rp with
            | none =>
                refine ⟨1, ?_⟩
                unfold ropeLoop
                rw [hget]
                dsimp only [NodeR.bv, NodeR.isLeaf, NodeR.rope]
                simp only [hp, if_false, Bool.false_eq_true]
                rw [hcont]
            | some jr =>
                obtain ⟨f, hf⟩ := hcont
                refine ⟨f + 1, ?_⟩
                unfold ropeLoop
                rw [hget]
                dsimp only [NodeR.bv, NodeR.isLeaf, NodeR.rope]
                simp only [hp, if_false, Bool.false_eq_true]
                exact hf

/-- `getRightChild` on a represented rope BVH (the rope of the left child)
resolves to the right sibling, so the uniform accessor of a rope encoding
represents the same logical tree. -/
theorem RepR_to_RepA {α : Type} {ns : List (NodeR α)} :
    ∀ {t : BTree α} {i : Nat} {rp : Option Nat},
      RepR ns i rp t → RepA (ropeInfo ns) i t := by
  intro t
  induction t with
  | leaf b idx =>
      intro i rp h
      cases h with
      | leaf hget =>
          refine RepA.leaf ?_
          unfold ropeInfo
          rw [hget]
  | node b l r ihl ihr =>
      intro i rp h
      cases h with
      | node hget hl hr =>
          rename_i lc j
          refine RepA.node ?_ (ihl hl) (ihr hr)
          have hlget : ∃ nd, ns.get? lc = some nd ∧ nd.rope = some j := by
            cases hl with
            | leaf hg => exact ⟨_, hg, rfl⟩
            | node hg _ _ => exact ⟨_, hg, rfl⟩
          obtain ⟨nd, hnd, hrope⟩ := hlget
          show ropeInfo ns i = some (.inner b lc j)
          unfold ropeInfo
          rw [hget]
          dsimp only
          rw [hnd]
          dsimp only
          rw [hrope]
          rfl

/-! ## Shape of the nearest step results -/

/-- A `done` result of the nearest step is always the sorted backing store of
the heap (lines 436–445: `sortHeap` then emit in order). -/
theorem nearestStep_done {α : Type} {acc : Nat → Option (NodeInfo α)}
    {dist : α → D} {k : Nat} {s : NState} {out : List Entry}
    (h : nearestStep acc dist k s = .done out) : ∃ hp, out = sortHeap hp := by
  unfold nearestStep popStep at h
  dsimp only at h
  repeat' split at h
  all_goals first
    | (injection h with h'; exact ⟨_, h'.symm⟩)
    | exact StepRes.noConfusion h



/-- Claim C1: for every non-empty BVH and every admissible spatial predicate
(§3/§8: the predicate respects bounding-volume containment, the pruning
premise), each spatial kernel invokes the callback exactly once per leaf
whose bounding volume satisfies the predicate, and makes no other
invocations; the order is unconstrained.  The two-child stack kernel's
emissions are a permutation of the satisfied leaves, the rope kernel emits
exactly the satisfied leaves in DFS order, and the one-leaf kernel emits
`(predicate, 0)` exactly when the single leaf's bounding volume satisfies
the predicate. -/
theorem spatial_kernels_exact {α : Type} (p : α → Bool) :
    (∀ (acc : Nat → Option (NodeInfo α)) (root : Nat) (t : BTree α),
      RepA acc root t → t.isLeaf = false → monoPB p t = true →
      ∃ fuel out, stackQuery p acc root fuel = some out ∧
        out.Perm (satLeaves p t)) ∧
      (∀ (ns : List (NodeR α)) (t : BTree α),
        RepR ns 0 .none t → monoPB p t = true →
        ∃ fuel, ropeQuery p ⟨ns, 0⟩ fuel = some (satLeaves p t)) ∧
      (∀ bv : α, spatialOneLeaf p bv = satLeaves p (.leaf bv 0)) := by
  refine ⟨?_, ?_, ?_⟩
  · intro acc root t hrep hint hm
    obtain ⟨f, hf⟩ := stackLoop_run p acc t.tsize t root [] [] []
      (by simp [spSize]) hrep hint List.Forall₂.nil
    refine ⟨f, sEmit p t, ?_, sEmit_perm hm hint⟩
    unfold stackQuery
    rw [hf]
    simp
  · intro ns t hrep hm
    obtain ⟨f, hf⟩ := ropeLoop_run p ns t 0 .none [] (satLeaves p t) hrep hm
      (by simp [ropeCont])
    exact ⟨f, by unfold ropeQuery; rw [hf]⟩
  · intro bv
    by_cases hp : p bv <;> simp [spatialOneLeaf, satLeaves_leaf, hp]

/-- Witness for C1 on a concrete two-leaf BVH in both encodings. -/
theorem spatial_kernels_exact_witness :
    (∃ fuel out, stackQuery (fun b => decide (b ≤ (1 : ℚ)))
        (acc2 [.inner 0 1 2, .leaf 1 0, .leaf 2 1]) 0 fuel = some out ∧
        out.Perm (satLeaves (fun b => decide (b ≤ (1 : ℚ)))
          (.node 0 (.leaf 1 0) (.leaf 2 1)))) ∧
      (∃ fuel, ropeQuery (fun b => decide (b ≤ (1 : ℚ)))
        ⟨[.inner 0 1 .none, .leaf 1 0 (.some 2), .leaf 2 1 .none], 0⟩ fuel
          = some (satLeaves (fun b => decide (b ≤ (1 : ℚ)))
            (.node 0 (.leaf 1 0) (.leaf 2 1)))) ∧
      spatialOneLeaf (fun b => decide (b ≤ (1 : ℚ))) 1
        = satLeaves (fun b => decide (b ≤ (1 : ℚ))) (.leaf 1 0) := by
  have h2l : RepA (acc2 ([.inner 0 1 2, .leaf 1 0, .leaf 2 1] :
      List (NodeInfo ℚ))) 1 (.leaf 1 0) := RepA.leaf (by decide)
  have h2r : RepA (acc2 ([.inner 0 1 2, .leaf 1 0, .leaf 2 1] :
      List (NodeInfo ℚ))) 2 (.leaf 2 1) := RepA.leaf (by decide)
  have h2 : RepA (acc2 ([.inner 0 1 2, .leaf 1 0, .leaf 2 1] :
      List (NodeInfo ℚ))) 0 (.node 0 (.leaf 1 0) (.leaf 2 1)) :=
    RepA.node (by decide) h2l h2r
  have hrl : RepR ([.inner 0 1 .none, .leaf 1 0 (.some 2),
      .leaf 2 1 .none] : List (NodeR ℚ)) 1 (.some 2) (.leaf 1 0) :=
    RepR.leaf (by decide)
  have hrr : RepR ([.inner 0 1 .none, .leaf 1 0 (.some 2),
      .leaf 2 1 .none] : List (NodeR ℚ)) 2 .none (.leaf 2 1) :=
    RepR.leaf (by decide)
  have hR : RepR ([.inner 0 1 .none, .leaf 1 0 (.some 2),
      .leaf 2 1 .none] : List (NodeR ℚ)) 0 .none
      (.node 0 (.leaf 1 0) (.leaf 2 1)) := RepR.node (by decide) hrl hrr
  exact ⟨(spatial_kernels_exact _).1 _ 0 _ h2 rfl (by decide),
    (spatial_kernels_exact _).2.1 _ _ hR (by decide),
    (spatial_kernels_exact _).2.2 1⟩

/-- Claim C4: within every single nearest query, the sequence of distances in
the emitted callbacks is nondecreasing: the kernel sorts the heap's backing
array in ascending distance order after traversal ends and then emits the
callbacks in that sorted order. -/
theorem nearest_output_sorted {α : Type} (acc : Nat → Option (NodeInfo α))
    (dist : α → D) (k : Nat) :
    ∀ (fuel : Nat) (s : NState) (out : List Entry),
      nearestRun acc dist k fuel s = some out →
      (∃ hp, out = sortHeap hp) ∧
        List.Pairwise (fun a b : Entry => a.2 ≤ b.2) out := by
  intro fuel
  induction fuel with
  | zero => intro s out h; simp [nearestRun] at h
  | succ f ih =>
      intro s out h
      unfold nearestRun at h
      cases hstep : nearestStep acc dist k s with
      | next s' => rw [hstep] at h; exact ih s' out h
      | done o =>
          rw [hstep] at h
          simp only [Option.some.injEq] at h
          subst h
          obtain ⟨hp, rfl⟩ := nearestStep_done hstep
          exact ⟨⟨hp, rfl⟩, sortHeap_sorted hp⟩
      | stuck => rw [hstep] at h; cases h

/-- Witness for C4: a concrete two-leaf query whose output is sorted. -/
theorem nearest_output_sorted_witness :
    (∃ hp, ([(0, (1 : D)), (1, 2)] : List Entry) = sortHeap hp) ∧
      List.Pairwise (fun a b : Entry => a.2 ≤ b.2)
        ([(0, (1 : D)), (1, 2)] : List Entry) :=
  nearest_output_sorted
    (acc2 [.inner 0 1 2, .leaf 1 0, .leaf 2 1]) (fun b => (b : D)) 2 20
    (initState 0) _ (by decide)

/-- Claim C8: degenerate inputs silently emit nothing: an empty BVH produces
no callbacks for any predicate batch (spatial and nearest alike), and a
nearest query with `k < 1` returns zero results without invoking the
callback, on both the general and the one-leaf paths. -/
theorem degenerate_inputs_silent :
    (∀ (α : Type) (b : BVH2 α) (preds : List (α → Bool)) (fuel : Nat),
        b.count = 0 →
        traverseSpatial b preds fuel = preds.map fun _ => some []) ∧
      (∀ (α : Type) (b : BVH2 α) (preds : List (Int × (α → D))) (fuel : Nat),
        b.count = 0 →
        traverseNearest b preds fuel = preds.map fun _ => some []) ∧
      (∀ (α : Type) (acc : Nat → Option (NodeInfo α)) (dist : α → D) (k : Int)
        (root fuel : Nat), k < 1 →
        nearestQuery acc dist k root fuel = some []) ∧
      (∀ (α : Type) (k : Int) (dist : α → D) (bv : α),
        k < 1 → nearestOneLeaf k dist bv = []) := by
  refine ⟨?_, ?_, ?_, ?_⟩
  · intro α b preds fuel h; simp [traverseSpatial, h]
  · intro α b preds fuel h; simp [traverseNearest, h]
  · intro α acc dist k root fuel h; simp [nearestQuery, h]
  · intro α k dist bv h; simp [nearestOneLeaf, h]

/-- Witness for C8 at concrete degenerate inputs. -/
theorem degenerate_inputs_silent_witness :
    traverseSpatial (α := ℚ) ⟨[], 0, 0⟩ [fun _ => true] 3
        = ([fun _ => true] : List (ℚ → Bool)).map (fun _ => some []) ∧
      traverseNearest (α := ℚ) ⟨[], 0, 0⟩ [(2, fun b => (b : D))] 3
        = ([(2, fun b => (b : D))] : List (Int × (ℚ → D))).map
            (fun _ => some []) ∧
      nearestQuery (α := ℚ) (acc2 []) (fun b => (b : D)) 0 0 3 = some [] ∧
      nearestOneLeaf (α := ℚ) (-1) (fun b => (b : D)) 5 = [] :=
  ⟨degenerate_inputs_silent.1 ℚ ⟨[], 0, 0⟩ _ 3 rfl,
    degenerate_inputs_silent.2.1 ℚ ⟨[], 0, 0⟩ _ 3 rfl,
    degenerate_inputs_silent.2.2.1 ℚ (acc2 []) _ 0 0 3 (by decide),
    degenerate_inputs_silent.2.2.2 ℚ (-1) _ 5 (by decide)⟩

/-- Claim C10: the rope-encoded spatial kernel starts at node id `0`
(`int next = 0; // start with root`) instead of asking the BVH for its root:
it agrees with the specified algorithm (which starts at `root_id`) whenever
the root's identifier is `0`, and a well-formed rope-encoded two-leaf BVH
whose root sits at a different id is traversed starting from the wrong node,
yielding a different result. -/
theorem rope_kernel_root_zero_precondition :
    (∀ (b : BVHR ℚ) (p : ℚ → Bool) (fuel : Nat), b.root = 0 →
        ropeQuery p b fuel = ropeQuerySpec p b fuel) ∧
      RepR badRopeBVH.nodes 2 .none (.node 0 (.leaf 0 0) (.leaf 0 1)) ∧
      ropeQuery (fun _ => true) badRopeBVH 5 = some [1] ∧
      ropeQuerySpec (fun _ => true) badRopeBVH 5 = some [0, 1] := by
  refine ⟨fun b p fuel h => ?_, ?_, by decide, by decide⟩
  · unfold ropeQuery ropeQuerySpec
    rw [h]
  · have h1 : RepR badRopeBVH.nodes 1 (some 0) (.leaf 0 0) :=
      RepR.leaf (by decide)
    have h0 : RepR badRopeBVH.nodes 0 .none (.leaf 0 1) :=
      RepR.leaf (by decide)
    exact RepR.node (by decide) h1 h0

/-- Claim C6: throughout a nearest query the pruning radius starts at `+∞`,
is assigned only when the heap's size equals `k` (becoming the heap's top
distance, the current kth-smallest), and never increases across loop
iterations. -/
theorem radius_never_increases {α : Type} (acc : Nat → Option (NodeInfo α))
    (dist : α → D) (k : Nat) (hk : 1 ≤ k) :
    (∀ root : Nat, (initState root).radius = ⊤) ∧
      (∀ s s' : NState, HeapCore k s.heap s.radius →
        nearestStep acc dist k s = .next s' →
        HeapCore k s'.heap s'.radius ∧ s'.radius ≤ s.radius ∧
          (s'.radius ≠ s.radius →
            s'.heap.length = k ∧ s'.radius = lastD s'.heap)) := by
  refine ⟨fun _ => rfl, fun s s' hc hstep => ?_⟩
  have main : HeapCore k s'.heap s'.radius ∧ s'.radius ≤ s.radius ∧
      s.heap.length ≤ s'.heap.length := by
    unfold nearestStep at hstep
    by_cases hen : s.dcur < s.radius
    · rw [if_pos hen] at hstep
      cases hacc : acc s.cur with
      | none => rw [hacc] at hstep; cases hstep
      | some info =>
          rw [hacc] at hstep
          cases info with
          | leaf b i => cases hstep
          | inner b lc rc =>
              dsimp only at hstep
              cases hal : acc lc with
              | none => rw [hal] at hstep; dsimp only at hstep; cases hstep
              | some nl =>
                  cases har : acc rc with
                  | none =>
                      rw [hal, har] at hstep
                      dsimp only at hstep
                      cases hstep
                  | some nr =>
                      rw [hal, har] at hstep
                      dsimp only at hstep
                      set A := (if (decide (dist nl.bv < s.radius)
                            && nl.isLeaf) = true then
                          leafUpdate k (nl.leafIndex, dist nl.bv) s.heap
                            s.radius
                        else (s.heap, s.radius)) with hA
                      set B := (if (decide (dist nr.bv < A.2)
                            && nr.isLeaf) = true then
                          leafUpdate k (nr.leafIndex, dist nr.bv) A.1 A.2
                        else A) with hB
                      have HA : HeapCore k A.1 A.2 ∧ A.2 ≤ s.radius ∧
                          s.heap.length ≤ A.1.length := by
                        rw [hA]
                        cases hcond : (decide (dist nl.bv < s.radius)
                            && nl.isLeaf) with
                        | false =>
                            simp only [Bool.false_eq_true, if_false]
                            exact ⟨hc, le_refl _, le_refl _⟩
                        | true =>
                            simp only [if_true]
                            have he : dist nl.bv < s.radius :=
                              of_decide_eq_true (Bool.and_elim_left hcond)
                            obtain ⟨h1, h2, h3⟩ :=
                              leafUpdate_core hk (nl.leafIndex, dist nl.bv)
                                hc he
                            refine ⟨h1, h2, ?_⟩
                            rw [h3]
                            have := hc.2.1
                            omega
                      have HB : HeapCore k B.1 B.2 ∧ B.2 ≤ A.2 ∧
                          A.1.length ≤ B.1.length := by
                        rw [hB]
                        cases hcond : (decide (dist nr.bv < A.2)
                            && nr.isLeaf) with
                        | false =>
                            simp only [Bool.false_eq_true, if_false]
                            exact ⟨HA.1, le_refl _, le_refl _⟩
                        | true =>
                            simp only [if_true]
                            have he : dist nr.bv < A.2 :=
                              of_decide_eq_true (Bool.and_elim_left hcond)
                            obtain ⟨h1, h2, h3⟩ :=
                              leafUpdate_core hk (nr.leafIndex, dist nr.bv)
                                HA.1 he
                            refine ⟨h1, h2, ?_⟩
                            rw [h3]
                            have := HA.1.2.1
                            omega
                      split at hstep
                      · injection hstep with h'
                        rw [← h']
                        exact ⟨HB.1, HB.2.1.trans HA.2.1,
                          HA.2.2.trans HB.2.2⟩
                      · unfold popStep at hstep
                        split at hstep
                        · cases hstep
                        · injection hstep with h'
                          rw [← h']
                          exact ⟨HB.1, HB.2.1.trans HA.2.1,
                            HA.2.2.trans HB.2.2⟩
    · rw [if_neg hen] at hstep
      unfold popStep at hstep
      split at hstep
      · cases hstep
      · injection hstep with h'
        rw [← h']
        exact ⟨hc, le_refl _, le_refl _⟩
  refine ⟨main.1, main.2.1, fun hne => ?_⟩
  rcases Nat.lt_or_ge s'.heap.length k with hlt | hge
  · exact absurd ((main.1.2.2.1 hlt).trans
      (hc.2.2.1 (Nat.lt_of_le_of_lt main.2.2 hlt)).symm) hne
  · have hlk : s'.heap.length = k := Nat.le_antisymm main.1.2.1 hge
    exact ⟨hlk, main.1.2.2.2 hlk⟩

/-- Witness for C6: one concrete step preserving the invariant. -/
theorem radius_never_increases_witness :
    (initState 0).radius = ⊤ ∧
      (HeapCore 1 (⟨1, 0, [(2, 2)], [], ⊤⟩ : NState).heap
          (⟨1, 0, [(2, 2)], [], ⊤⟩ : NState).radius ∧
        (⟨1, 0, [(2, 2)], [], ⊤⟩ : NState).radius ≤ (initState 0).radius ∧
        ((⟨1, 0, [(2, 2)], [], ⊤⟩ : NState).radius ≠ (initState 0).radius →
          (⟨1, 0, [(2, 2)], [], ⊤⟩ : NState).heap.length = 1 ∧
          (⟨1, 0, [(2, 2)], [], ⊤⟩ : NState).radius =
            lastD (⟨1, 0, [(2, 2)], [], ⊤⟩ : NState).heap)) := by
  have hcore : HeapCore 1 (initState 0).heap (initState 0).radius :=
    ⟨List.Pairwise.nil, by decide, fun _ => rfl,
      fun h => by simp [initState] at h⟩
  exact ⟨(radius_never_increases (α := ℚ)
      (acc2 [.inner 0 1 2, .inner 0 3 4, .inner 2 5 6, .leaf 0 0, .leaf 1 1,
        .leaf 2 2, .leaf 5 3])
      (fun b => (b : D)) 1 (by omega)).1 0,
    (radius_never_increases (α := ℚ)
      (acc2 [.inner 0 1 2, .inner 0 3 4, .inner 2 5 6, .leaf 0 0, .leaf 1 1,
        .leaf 2 2, .leaf 5 3])
      (fun b => (b : D)) 1 (by omega)).2
      (initState 0) ⟨1, 0, [(2, 2)], [], ⊤⟩ hcore (by decide)⟩

/-- Claim C7: the test gating the right child's heap insertion reads the
radius as tightened by the left child's insertion in the same iteration (not
the iteration-entry radius): with a full heap and both children leaves, if
the left insertion tightens the radius to at most the right child's distance,
the iteration inserts only the left child and leaves the heap contents
otherwise unchanged — even if the right child's distance is below the
iteration-entry radius. -/
theorem right_child_reads_tightened_radius {α : Type}
    (acc : Nat → Option (NodeInfo α)) (dist : α → D) (k : Nat) (s : NState)
    (b bl br : α) (lc rc il ir : Nat)
    (hacc : acc s.cur = some (.inner b lc rc))
    (hl : acc lc = some (.leaf bl il)) (hr : acc rc = some (.leaf br ir))
    (hen : s.dcur < s.radius)
    (_hfull : s.heap.length = k)
    (hdl : dist bl < s.radius)
    (htight : (leafUpdate k (il, dist bl) s.heap s.radius).2 ≤ dist br) :
    nearestStep acc dist k s =
      popStep s.stack (leafUpdate k (il, dist bl) s.heap s.radius).1
        (leafUpdate k (il, dist bl) s.heap s.radius).2 := by
  unfold nearestStep
  rw [if_pos hen, hacc]
  dsimp only
  rw [hl, hr]
  dsimp only [NodeInfo.bv, NodeInfo.isLeaf, NodeInfo.leafIndex]
  simp only [Bool.and_true, Bool.not_true, Bool.and_false, Bool.or_false,
    Bool.false_eq_true, if_false]
  rw [if_pos (decide_eq_true hdl)]
  split
  next hcon =>
    exfalso
    exact absurd (of_decide_eq_true hcon) (not_lt.2 htight)
  next => rfl

/-- Witness for C7: a concrete full-heap iteration in which the right child
is closer than the iteration-entry radius but not closer than the tightened
one, and is therefore not inserted. -/
theorem right_child_reads_tightened_radius_witness :
    nearestStep (α := ℚ) (acc2 [.inner 0 1 2, .leaf 1 0, .leaf 2 1])
        (fun b => (b : D)) 1 ⟨0, 0, [], [(7, 3)], 3⟩ =
      popStep [] (leafUpdate 1 (0, (1 : D)) [(7, 3)] 3).1
        (leafUpdate 1 (0, (1 : D)) [(7, 3)] 3).2 ∧
      ((1 : D) < 3 ∧ (2 : D) < 3 ∧
        (leafUpdate 1 (0, (1 : D)) [(7, 3)] 3).2 ≤ (2 : D)) :=
  ⟨right_child_reads_tightened_radius
      (acc2 [.inner 0 1 2, .leaf 1 0, .leaf 2 1]) (fun b => (b : D)) 1
      ⟨0, 0, [], [(7, 3)], 3⟩ 0 1 2 1 2 0 1 rfl rfl rfl (by decide)
      rfl (by decide) (by decide),
    by decide, by decide, by decide⟩

/-! ## Admissibility facts for the nearest proof -/

theorem finB_node {α : Type} {dist : α → D} {b : α} {l r : BTree α}
    (h : finB dist (.node b l r) = true) :
    dist b ≠ ⊤ ∧ finB dist l = true ∧ finB dist r = true := by
  simp only [finB, Bool.and_eq_true, decide_eq_true_eq] at h
  exact ⟨h.1.1, h.1.2, h.2⟩

theorem finB_bv {α : Type} {dist : α → D} :
    ∀ {t : BTree α}, finB dist t = true → dist t.bv ≠ ⊤ := by
  intro t h
  cases t with
  | leaf b i =>
      simp only [finB, decide_eq_true_eq] at h
      exact h
  | node b l r => exact (finB_node h).1

theorem monoDB_node {α : Type} {dist : α → D} {b : α} {l r : BTree α}
    (h : monoDB dist (.node b l r) = true) :
    dist b ≤ dist l.bv ∧ dist b ≤ dist r.bv ∧
      monoDB dist l = true ∧ monoDB dist r = true := by
  simp only [monoDB, Bool.and_eq_true, decide_eq_true_eq] at h
  exact ⟨h.1.1.1, h.1.1.2, h.1.2, h.2⟩

/-- Under distance admissibility, the distance of a node's bounding volume
lower bounds the distance of every leaf entry beneath it (the soundness of
pruning by `distance_node ≥ r`). -/
theorem monoDB_lb {α : Type} {dist : α → D} :
    ∀ {t : BTree α}, monoDB dist t = true →
      ∀ e ∈ entriesT dist t, dist t.bv ≤ e.2 := by
  intro t
  induction t with
  | leaf b i =>
      intro _ e he
      simp only [entriesT, BTree.leaves, List.map_cons, List.map_nil,
        List.mem_singleton] at he
      subst he
      exact le_refl _
  | node b l r ihl ihr =>
      intro hm e he
      obtain ⟨hlb, hrb, hml, hmr⟩ := monoDB_node hm
      rw [entriesT_node, List.mem_append] at he
      rcases he with he | he
      · exact le_trans hlb (ihl hml e he)
      · exact le_trans hrb (ihr hmr e he)

theorem entriesT_of_leaf {α : Type} (dist : α → D) {t : BTree α}
    (h : t.isLeaf = true) :
    entriesT dist t = [(t.leafIndex, dist t.bv)] := by
  cases t with
  | leaf b i => rfl
  | node b l r => cases h

/-- Full accounting of one heap insertion: the new store plus the evicted
entries (none when the heap was not yet full, the previous top otherwise) is
the old store plus the new entry; evicted entries sit exactly at the old
radius. -/
theorem leafUpdate_account {k : Nat} (hk : 1 ≤ k) (e : Entry)
    {h : List Entry} {r : D} (hc : HeapCore k h r) (_he : e.2 < r) :
    ∃ dadd : Multiset Entry,
      ((leafUpdate k e h r).1 : Multiset Entry) + dadd
          = (h : Multiset Entry) + {e} ∧
        (h.length < k → dadd = 0) ∧ (∀ b ∈ dadd, b.2 = r) := by
  by_cases hlen : h.length < k
  · refine ⟨0, ?_, fun _ => rfl, by simp⟩
    have hperm := leafUpdate_perm_small (k := k) (r := r) (e := e) hlen
    rw [add_zero]
    rw [Multiset.coe_eq_coe.2 hperm, ← Multiset.cons_coe,
      add_comm (h : Multiset Entry) ({e} : Multiset Entry),
      Multiset.singleton_add]
  · have hlK : h.length = k := le_antisymm hc.2.1 (not_lt.1 hlen)
    have hne : h ≠ [] := by
      intro hc0
      rw [hc0] at hlK
      simp at hlK
      omega
    obtain ⟨b, hbmem, hbtop, hperm⟩ :=
      leafUpdate_perm_full (k := k) (r := r) (e := e) hlen hne
    refine ⟨{b}, ?_, fun hcon => absurd hcon hlen, ?_⟩
    · have hms := Multiset.coe_eq_coe.2 hperm
      rw [← Multiset.coe_add, Multiset.coe_singleton] at hms
      rw [hms, ← Multiset.cons_coe,
        add_comm (h : Multiset Entry) ({e} : Multiset Entry),
        Multiset.singleton_add]
    · intro x hx
      rw [Multiset.mem_singleton] at hx
      subst hx
      rw [hbtop]
      exact (hc.2.2.2 hlK).symm

/-- Everything the master invariant needs about processing one leaf child
(source lines 374–397, either side): the heap/radius invariant is preserved,
the radius does not increase, the heap does not shrink, and the child's
entry is accounted for: it lands in the heap, with possibly one entry (the
rejected child or the evicted previous top) moved out at or above the
resulting radius; nothing is lost while the heap is not yet full, provided
the distance is finite. -/
theorem leaf_child_phase {α : Type} {k : Nat} (hk : 1 ≤ k) (dist : α → D)
    (c : BTree α) (hcl : c.isLeaf = true) {h : List Entry} {r : D}
    (hc : HeapCore k h r) (res : List Entry × D)
    (hres : res = (if (decide (dist c.bv < r) && c.isLeaf) = true then
        leafUpdate k (c.leafIndex, dist c.bv) h r else (h, r))) :
    HeapCore k res.1 res.2 ∧ res.2 ≤ r ∧ h.length ≤ res.1.length ∧
      ∃ dadd : Multiset Entry,
        (res.1 : Multiset Entry) + dadd
            = (h : Multiset Entry) + (entriesT dist c : Multiset Entry) ∧
          (dist c.bv ≠ ⊤ → res.1.length < k → dadd = 0) ∧
          (∀ b ∈ dadd, res.2 ≤ b.2) := by
  rw [entriesT_of_leaf dist hcl]
  rw [hcl, Bool.and_true] at hres
  by_cases hd : dist c.bv < r
  · rw [if_pos (decide_eq_true hd)] at hres
    subst hres
    obtain ⟨h1, h2, h3⟩ := leafUpdate_core hk (c.leafIndex, dist c.bv) hc hd
    obtain ⟨dadd, hbal, hsmall, htop⟩ :=
      leafUpdate_account hk (c.leafIndex, dist c.bv) hc hd
    refine ⟨h1, h2, by rw [h3]; have := hc.2.1; omega, dadd, ?_,
      fun _ hlen => ?_, fun b hb => ?_⟩
    · rw [hbal]
      rfl
    · apply hsmall
      rw [h3] at hlen
      omega
    · rw [htop b hb]
      exact h2
  · rw [if_neg (by simp only [decide_eq_true_eq]; exact hd)] at hres
    subst hres
    refine ⟨hc, le_refl _, le_refl _,
      {(c.leafIndex, dist c.bv)}, ?_, fun hfin hlen => ?_, fun b hb => ?_⟩
    · simp
    · exfalso
      have : r = ⊤ := hc.2.2.1 hlen
      rw [this] at hd
      exact hfin (by simpa [WithTop.lt_top_iff_ne_top] using hd)
    · rw [Multiset.mem_singleton] at hb
      subst hb
      exact not_lt.1 hd

theorem stSize_cons {α : Type} (td : BTree α × D) (ss : List (BTree α × D)) :
    stSize (td :: ss) = td.1.tsize + stSize ss := by
  simp [stSize]

theorem stackEntries_nil {α : Type} (dist : α → D) :
    stackEntries dist ([] : List (BTree α × D)) = 0 := rfl

theorem stackEntries_cons {α : Type} (dist : α → D) (td : BTree α × D)
    (ss : List (BTree α × D)) :
    stackEntries dist (td :: ss)
      = (entriesT dist td.1 : Multiset Entry) + stackEntries dist ss := by
  simp [stackEntries]

theorem pendingE_eq {α : Type} (dist : α → D) (t : BTree α)
    (ss : List (BTree α × D)) :
    pendingE dist t ss
      = (entriesT dist t : Multiset Entry) + stackEntries dist ss := rfl

theorem entriesT_node_coe {α : Type} (dist : α → D) (b : α) (l r : BTree α) :
    (entriesT dist (.node b l r) : Multiset Entry)
      = (entriesT dist l : Multiset Entry)
        + (entriesT dist r : Multiset Entry) := by
  rw [entriesT_node, ← Multiset.coe_add]

/-- Two node accessors representing the same logical tree (for instance the
two node encodings of one BVH) drive the nearest loop in lockstep: the
kernels read nodes only through `bv`, `isLeaf` and `getLeafPermutationIndex`,
which the representation fixes, so the runs agree at every fuel. -/
theorem nearestRun_bisim {α : Type} (acc acc' : Nat → Option (NodeInfo α))
    (dist : α → D) (k : Nat) :
    ∀ (fuel : Nat) (t : BTree α) (cur cur' : Nat) (dcur : D)
      (stack stack' : List (Nat × D)) (ss : List (BTree α × D))
      (heap : List Entry) (radius : D),
      RepA acc cur t → RepA acc' cur' t →
      StackRel acc stack ss → StackRel acc' stack' ss →
      nearestRun acc dist k fuel ⟨cur, dcur, stack, heap, radius⟩ =
        nearestRun acc' dist k fuel ⟨cur', dcur, stack', heap, radius⟩ := by
  intro fuel
  induction fuel with
  | zero => intros; rfl
  | succ f ih =>
      intro t cur cur' dcur stack stack' ss heap radius h1 h2 hs1 hs2
      unfold nearestRun nearestStep
      dsimp only
      by_cases hen : dcur < radius
      case neg =>
          rw [if_neg hen, if_neg hen]
          unfold popStep
          unfold StackRel at hs1 hs2
          cases hs1 with
          | nil => cases hs2 with | nil => rfl
          | cons hjd hrest =>
              rename_i jd td srest ssrest
              cases hs2 with
              | cons hjd' hrest' =>
                  rename_i jd' srest'
                  dsimp only
                  rw [hjd.2, hjd'.2]
                  exact ih td.1 jd.1 jd'.1 td.2 srest srest' ssrest heap
                    radius hjd.1 hjd'.1 hrest hrest'
      case pos =>
          rw [if_pos hen, if_pos hen]
          cases t with
          | leaf b idx =>
              cases h1 with
              | leaf hacc =>
                  cases h2 with
                  | leaf hacc' => rw [hacc, hacc']
          | node b l r =>
              cases h1 with
              | node hacc hl hr =>
                  rename_i lc rc
                  cases h2 with
                  | node hacc' hl' hr' =>
                      rename_i lc' rc'
                      rw [hacc, hacc']
                      dsimp only
                      obtain ⟨nl, hal, hbvl, hisl, hidxl⟩ := RepA_proj hl
                      obtain ⟨nr, har, hbvr, hisr, hidxr⟩ := RepA_proj hr
                      obtain ⟨nl', hal', hbvl', hisl', hidxl'⟩ :=
                        RepA_proj hl'
                      obtain ⟨nr', har', hbvr', hisr', hidxr'⟩ :=
                        RepA_proj hr'
                      rw [hal, har, hal', har']
                      dsimp only
                      rw [hbvl, hisl, hidxl, hbvr, hisr, hidxr, hbvl',
                        hisl', hidxl', hbvr', hisr', hidxr']
                      set A := (if (decide (dist l.bv < radius)
                            && l.isLeaf) = true then
                          leafUpdate k (l.leafIndex, dist l.bv) heap radius
                        else (heap, radius)) with hA
                      set B := (if (decide (dist r.bv < A.2)
                            && r.isLeaf) = true then
                          leafUpdate k (r.leafIndex, dist r.bv) A.1 A.2
                        else A) with hB
                      set tl := (decide (dist l.bv < B.2) && !l.isLeaf)
                        with htl
                      set tr := (decide (dist r.bv < B.2) && !r.isLeaf)
                        with htr
                      cases htlr : (tl || tr) with
                      | false =>
                          simp only [Bool.false_eq_true, if_false]
                          unfold popStep
                          unfold StackRel at hs1 hs2
                          cases hs1 with
                          | nil => cases hs2 with | nil => rfl
                          | cons hjd hrest =>
                              rename_i jd td srest ssrest
                              cases hs2 with
                              | cons hjd' hrest' =>
                                  rename_i jd' srest'
                                  dsimp only
                                  rw [hjd.2, hjd'.2]
                                  exact ih td.1 jd.1 jd'.1 td.2 srest srest'
                                    ssrest B.1 B.2 hjd.1 hjd'.1 hrest hrest'
                      | true =>
                          simp only [if_true]
                          cases htt : (tl && tr) with
                          | false =>
                              simp only [Bool.false_eq_true, if_false]
                              cases hgl : (tl && (decide (dist l.bv ≤
                                  dist r.bv) || !tr)) with
                              | false =>
                                  simp only [Bool.false_eq_true, if_false]
                                  exact ih r rc rc' (dist r.bv) stack stack'
                                    ss B.1 B.2 hr hr' hs1 hs2
                              | true =>
                                  simp only [if_true]
                                  exact ih l lc lc' (dist l.bv) stack stack'
                                    ss B.1 B.2 hl hl' hs1 hs2
                          | true =>
                              simp only [if_true]
                              cases hgl : (tl && (decide (dist l.bv ≤
                                  dist r.bv) || !tr)) with
                              | false =>
                                  simp only [Bool.false_eq_true, if_false]
                                  exact ih r rc rc' (dist r.bv)
                                    ((lc, dist l.bv) :: stack)
                                    ((lc', dist l.bv) :: stack')
                                    ((l, dist l.bv) :: ss) B.1 B.2 hr hr'
                                    (List.Forall₂.cons ⟨hl, rfl⟩ hs1)
                                    (List.Forall₂.cons ⟨hl', rfl⟩ hs2)
                              | true =>
                                  simp only [if_true]
                                  exact ih l lc lc' (dist l.bv)
                                    ((rc, dist r.bv) :: stack)
                                    ((rc', dist r.bv) :: stack')
                                    ((r, dist r.bv) :: ss) B.1 B.2 hl hl'
                                    (List.Forall₂.cons ⟨hr, rfl⟩ hs1)
                                    (List.Forall₂.cons ⟨hr', rfl⟩ hs2)

/-- Helper for C9: the recompute-on-pop loop coincides with the
stack-distance loop whenever every deferred id on the stack resolves through
the accessor and its stored distance equals the recomputable
`distance(g, bv(node))`. -/
theorem nearestRunCuda_rel {α : Type} (acc : Nat → Option (NodeInfo α))
    (dist : α → D) (k : Nat) :
    ∀ (fuel : Nat) (cur : Nat) (dcur : D) (stack : List (Nat × D))
      (heap : List Entry) (radius : D),
      (∀ jd ∈ stack, ∃ info, acc jd.1 = some info ∧ jd.2 = dist info.bv) →
      nearestRunCuda acc dist k fuel
          ⟨cur, dcur, stack.map Prod.fst, heap, radius⟩ =
        nearestRun acc dist k fuel ⟨cur, dcur, stack, heap, radius⟩ := by
  intro fuel
  induction fuel with
  | zero => intro cur dcur stack heap radius hst; rfl
  | succ f ih =>
      intro cur dcur stack heap radius hst
      unfold nearestRunCuda nearestRun nearestStepCuda nearestStep
      dsimp only
      by_cases hen : dcur < radius
      case neg =>
        rw [if_neg hen, if_neg hen]
        unfold popStepCuda popStep
        cases stack with
        | nil => rfl
        | cons jd rest =>
            obtain ⟨info, hacc, hd⟩ := hst jd (List.mem_cons_self jd rest)
            dsimp only [List.map_cons]
            rw [hacc]
            dsimp only
            rw [← hd]
            exact ih jd.1 jd.2 rest heap radius
              (fun x hx => hst x (List.mem_cons_of_mem _ hx))
      case pos =>
        rw [if_pos hen, if_pos hen]
        cases hacc : acc cur with
        | none => rfl
        | some info =>
            cases info with
            | leaf b i => rfl
            | inner b lc rc =>
                dsimp only
                cases hal : acc lc with
                | none => rfl
                | some nl =>
                    cases har : acc rc with
                    | none => rfl
                    | some nr =>
                        dsimp only
                        set A := (if (decide (dist nl.bv < radius)
                              && nl.isLeaf) = true then
                            leafUpdate k (nl.leafIndex, dist nl.bv) heap
                              radius
                          else (heap, radius)) with hA
                        set B := (if (decide (dist nr.bv < A.2)
                              && nr.isLeaf) = true then
                            leafUpdate k (nr.leafIndex, dist nr.bv) A.1 A.2
                          else A) with hB
                        set tl := (decide (dist nl.bv < B.2) && !nl.isLeaf)
                          with htl
                        set tr := (decide (dist nr.bv < B.2) && !nr.isLeaf)
                          with htr
                        cases htlr : (tl || tr) with
                        | false =>
                            simp only [Bool.false_eq_true, if_false]
                            unfold popStepCuda popStep
                            cases stack with
                            | nil => rfl
                            | cons jd rest =>
                                obtain ⟨info, hacc', hd⟩ :=
                                  hst jd (List.mem_cons_self jd rest)
                                dsimp only [List.map_cons]
                                rw [hacc']
                                dsimp only
                                rw [← hd]
                                exact ih jd.1 jd.2 rest B.1 B.2
                                  (fun x hx =>
                                    hst x (List.mem_cons_of_mem _ hx))
                        | true =>
                            simp only [if_true]
                            cases htt : (tl && tr) with
                            | false =>
                                simp only [Bool.false_eq_true, if_false]
                                exact ih _ _ stack B.1 B.2 hst
                            | true =>
                                simp only [if_true]
                                cases hgl : (tl && (decide
                                    (dist nl.bv ≤ dist nr.bv) || !tr)) with
                                | false =>
                                    simp only [Bool.false_eq_true, if_false,
                                      ← List.map_cons]
                                    exact ih _ _ ((lc, dist nl.bv) :: stack)
                                      B.1 B.2
                                      (fun x hx => by
                                        rcases List.mem_cons.1 hx with
                                          rfl | hx'
                                        · exact ⟨nl, hal, rfl⟩
                                        · exact hst x hx')
                                | true =>
                                    simp only [if_true, ← List.map_cons]
                                    exact ih _ _ ((rc, dist nr.bv) :: stack)
                                      B.1 B.2
                                      (fun x hx => by
                                        rcases List.mem_cons.1 hx with
                                          rfl | hx'
                                        · exact ⟨nr, har, rfl⟩
                                        · exact hst x hx')

/-- Claim C9: the stack-distance variant and the recompute-on-pop
(`__CUDA_ARCH__`) variant of the nearest kernel are equivalent: from the
initial state they produce identical results — hence identical ordered
`(leaf_index, distance)` callback lists — for every node accessor (any BVH in
either encoding), every geometry-induced distance function and every `k`,
because the recomputed distance is the same pure function of the node's
bounding volume as the stored one. -/
theorem cuda_variant_equivalent {α : Type} (acc : Nat → Option (NodeInfo α))
    (dist : α → D) (k : Nat) (root fuel : Nat) :
    nearestRunCuda acc dist k fuel ⟨root, 0, [], [], ⊤⟩ =
      nearestRun acc dist k fuel (initState root) :=
  nearestRunCuda_rel acc dist k fuel root 0 [] [] ⊤ (by simp)

/-- Witness for C10's universally quantified part, at a concrete root-0
BVH. -/
theorem rope_kernel_root_zero_precondition_witness :
    ropeQuery (fun _ => true)
        (⟨[.inner 0 1 .none, .leaf 1 0 (.some 2), .leaf 2 1 .none], 0⟩ : BVHR ℚ) 5
      = ropeQuerySpec (fun _ => true)
        (⟨[.inner 0 1 .none, .leaf 1 0 (.some 2), .leaf 2 1 .none], 0⟩ : BVHR ℚ) 5 :=
  rope_kernel_root_zero_precondition.1 _ _ 5 rfl

/-- Master theorem for the nearest traversal loop.  From any admissible
state the loop terminates, emitting the sorted heap, and the final heap plus
the discarded entries account exactly for the previous heap, the previously
discarded entries and every pending leaf entry.  Under the finiteness gate
`G2` nothing is discarded while the heap is not yet full (whence the
`min(k, N)` cardinality); under the admissibility gate `G1` every retained
entry is at most every discarded one (the k-smallest selection property). -/
theorem nearestRun_master {α : Type} (acc : Nat → Option (NodeInfo α))
    (dist : α → D) (k : Nat) (hk : 1 ≤ k) (G1 G2 : Prop) :
    ∀ (n : Nat) (t : BTree α) (cur : Nat) (dcur : D)
      (stack : List (Nat × D)) (ss : List (BTree α × D))
      (heap : List Entry) (radius : D) (disc : Multiset Entry),
      t.tsize + stSize ss ≤ n →
      RepA acc cur t →
      t.isLeaf = false →
      StackRel acc stack ss →
      (∀ td ∈ ss, (td.1 : BTree α).isLeaf = false) →
      HeapCore k heap radius →
      (G2 → (finB dist t = true ∧ dcur ≠ ⊤ ∧
        ∀ td ∈ ss, finB dist td.1 = true ∧ td.2 ≠ ⊤)) →
      (G2 → heap.length < k → disc = 0) →
      (G1 → (monoDB dist t = true ∧ lbOK dist (t, dcur) ∧
        (∀ td ∈ ss, monoDB dist td.1 = true ∧ lbOK dist td) ∧
        ∀ b ∈ disc, radius ≤ b.2)) →
      ∃ (fuel : Nat) (H : List Entry) (disc' : Multiset Entry),
        nearestRun acc dist k fuel ⟨cur, dcur, stack, heap, radius⟩
          = some (sortHeap H) ∧
        (H : Multiset Entry) + disc'
          = (heap : Multiset Entry) + disc + pendingE dist t ss ∧
        H.length ≤ k ∧
        (G2 → H.length < k → disc' = 0) ∧
        (G1 → ∀ a ∈ H, ∀ b ∈ disc', a.2 ≤ b.2) := by
  intro n
  induction n with
  | zero =>
      intro t cur dcur stack ss heap radius disc hn _ _ _ _ _ _ _ _
      have := t.tsize_pos
      omega
  | succ n ih =>
      intro t cur dcur stack ss heap radius disc hn hrep hint hst hssI
        hcore hG2 hG2d hG1
      have popGo : ∀ (hp : List Entry) (rp : D) (dc : Multiset Entry),
          stSize ss ≤ n →
          HeapCore k hp rp →
          (G2 → ∀ td ∈ ss, finB dist td.1 = true ∧ td.2 ≠ ⊤) →
          (G2 → hp.length < k → dc = 0) →
          (G1 → (∀ td ∈ ss, monoDB dist td.1 = true ∧ lbOK dist td) ∧
            ∀ b ∈ dc, rp ≤ b.2) →
          ∃ (f : Nat) (H : List Entry) (disc' : Multiset Entry),
            (∀ s : NState, nearestStep acc dist k s = popStep stack hp rp →
              nearestRun acc dist k (f + 1) s = some (sortHeap H)) ∧
            (H : Multiset Entry) + disc'
              = (hp : Multiset Entry) + dc + stackEntries dist ss ∧
            H.length ≤ k ∧
            (G2 → H.length < k → disc' = 0) ∧
            (G1 → ∀ a ∈ H, ∀ b ∈ disc', a.2 ≤ b.2) := by
        intro hp rp dc hsz hcp hfinp hdcp hg1p
        unfold StackRel at hst
        cases hst with
        | nil =>
            refine ⟨0, hp, dc, ?_, ?_, hcp.2.1, hdcp, ?_⟩
            · intro s hs
              unfold nearestRun
              rw [hs]
              rfl
            · rw [stackEntries_nil, add_zero]
            · intro hg1 a ha bb hbb
              rcases Nat.lt_or_ge hp.length k with hlt | hge
              · have hrt : rp = ⊤ := hcp.2.2.1 hlt
                have : bb.2 = ⊤ := top_le_iff.1 (hrt ▸ (hg1p hg1).2 bb hbb)
                rw [this]
                exact le_top
              · have hlK : hp.length = k := le_antisymm hcp.2.1 hge
                exact le_trans
                  ((hcp.2.2.2 hlK) ▸ le_lastD_of_sorted hcp.1 a ha)
                  ((hg1p hg1).2 bb hbb)
        | cons hjd hrest =>
            rename_i jd td srest ssrest
            rw [stSize_cons] at hsz
            obtain ⟨f, H, disc', hrun, hbal, hlen, hg2c, hg1c⟩ :=
              ih td.1 jd.1 td.2 srest ssrest hp rp dc (by omega) hjd.1
                (hssI td (List.mem_cons_self td ssrest)) hrest
                (fun x hx => hssI x (List.mem_cons_of_mem _ hx)) hcp
                (fun hg2 => ⟨(hfinp hg2 td (List.mem_cons_self td ssrest)).1,
                  (hfinp hg2 td (List.mem_cons_self td ssrest)).2,
                  fun x hx => hfinp hg2 x (List.mem_cons_of_mem _ hx)⟩)
                hdcp
                (fun hg1 => ⟨((hg1p hg1).1 td
                    (List.mem_cons_self td ssrest)).1,
                  ((hg1p hg1).1 td (List.mem_cons_self td ssrest)).2,
                  fun x hx => (hg1p hg1).1 x (List.mem_cons_of_mem _ hx),
                  (hg1p hg1).2⟩)
            refine ⟨f, H, disc', ?_, ?_, hlen, hg2c, hg1c⟩
            · intro s hs
              unfold nearestRun
              rw [hs]
              unfold popStep
              dsimp only
              rw [hjd.2]
              exact hrun
            · rw [hbal, pendingE_eq, stackEntries_cons]
      by_cases hen : dcur < radius
      case neg =>
        obtain ⟨f, H, disc', hrun, hbal, hlen, hg2c, hg1c⟩ :=
          popGo heap radius (disc + (entriesT dist t : Multiset Entry))
            (by have := t.tsize_pos; omega)
            hcore (fun hg2 => (hG2 hg2).2.2)
            (fun hg2 hlt => by
              exfalso
              have hrt := hcore.2.2.1 hlt
              rw [hrt] at hen
              exact hen (WithTop.lt_top_iff_ne_top.2 (hG2 hg2).2.1))
            (fun hg1 => ⟨(hG1 hg1).2.2.1, by
              intro bb hbb
              rw [Multiset.mem_add] at hbb
              rcases hbb with hbb | hbb
              · exact (hG1 hg1).2.2.2 bb hbb
              · exact le_trans (not_lt.1 hen)
                  ((hG1 hg1).2.1 bb (Multiset.mem_coe.1 hbb))⟩)
        refine ⟨f + 1, H, disc', ?_, ?_, hlen, hg2c, hg1c⟩
        · apply hrun
          unfold nearestStep
          dsimp only
          rw [if_neg hen]
        · rw [hbal, pendingE_eq]
          abel
      case pos =>
        cases t with
        | leaf bb ii => cases hint
        | node b l r =>
            cases hrep with
            | node hacc hrl hrr =>
              rename_i lc rc
              obtain ⟨nl, hal, hbvl, hisl, hidxl⟩ := RepA_proj hrl
              obtain ⟨nr, har, hbvr, hisr, hidxr⟩ := RepA_proj hrr
              simp only [BTree.tsize] at hn
              set A := (if (decide (dist l.bv < radius) && l.isLeaf) = true
                  then leafUpdate k (l.leafIndex, dist l.bv) heap radius
                else (heap, radius)) with hA
              set B := (if (decide (dist r.bv < A.2) && r.isLeaf) = true
                  then leafUpdate k (r.leafIndex, dist r.bv) A.1 A.2
                else A) with hB
              have PA : HeapCore k A.1 A.2 ∧ A.2 ≤ radius ∧
                  heap.length ≤ A.1.length ∧
                  ∃ dL : Multiset Entry,
                    (A.1 : Multiset Entry) + dL = (heap : Multiset Entry)
                      + (if l.isLeaf = true
                          then (entriesT dist l : Multiset Entry) else 0) ∧
                    (G2 → A.1.length < k → dL = 0) ∧
                    (∀ bb ∈ dL, A.2 ≤ bb.2) := by
                cases hll : l.isLeaf with
                | true =>
                    obtain ⟨q1, q2, q3, dadd, qb, qz, qbnd⟩ :=
                      leaf_child_phase hk dist l hll hcore A hA
                    refine ⟨q1, q2, q3, dadd, ?_, fun hg2 hlen' => qz
                      (finB_bv (finB_node (hG2 hg2).1).2.1) hlen', qbnd⟩
                    simp only [hll, if_true]
                    exact qb
                | false =>
                    have hAe : A = (heap, radius) := by
                      rw [hA, hll, Bool.and_false]
                      rfl
                    rw [hAe]
                    exact ⟨hcore, le_refl _, le_refl _, 0, by simp [hll],
                      fun _ _ => rfl, by simp⟩
              obtain ⟨PA1, PA2, PA3, dL, PAb, PAz, PAbnd⟩ := PA
              have PB : HeapCore k B.1 B.2 ∧ B.2 ≤ A.2 ∧
                  A.1.length ≤ B.1.length ∧
                  ∃ dR : Multiset Entry,
                    (B.1 : Multiset Entry) + dR = (A.1 : Multiset Entry)
                      + (if r.isLeaf = true
                          then (entriesT dist r : Multiset Entry) else 0) ∧
                    (G2 → B.1.length < k → dR = 0) ∧
                    (∀ bb ∈ dR, B.2 ≤ bb.2) := by
                cases hrr' : r.isLeaf with
                | true =>
                    obtain ⟨q1, q2, q3, dadd, qb, qz, qbnd⟩ :=
                      leaf_child_phase hk dist r hrr' PA1 B (by rw [hB])
                    refine ⟨q1, q2, q3, dadd, ?_, fun hg2 hlen' => qz
                      (finB_bv (finB_node (hG2 hg2).1).2.2) hlen', qbnd⟩
                    simp only [hrr', if_true]
                    exact qb
                | false =>
                    have hBe : B = A := by
                      rw [hB, hrr', Bool.and_false]
                      rfl
                    rw [hBe]
                    exact ⟨PA1, le_refl _, le_refl _, 0, by simp [hrr'],
                      fun _ _ => rfl, by simp⟩
              obtain ⟨PB1, PB2, PB3, dR, PBb, PBz, PBbnd⟩ := PB
              set tl := (decide (dist l.bv < B.2) && !l.isLeaf) with htlD
              set tr := (decide (dist r.bv < B.2) && !r.isLeaf) with htrD
              have hstepEq : nearestStep acc dist k
                  ⟨cur, dcur, stack, heap, radius⟩ =
                  (if (tl || tr) = true then
                    .next ⟨if (tl && (decide (dist l.bv ≤ dist r.bv)
                              || !tr)) = true then lc else rc,
                          if (tl && (decide (dist l.bv ≤ dist r.bv)
                              || !tr)) = true then dist l.bv else dist r.bv,
                          if (tl && tr) = true then
                            (if (tl && (decide (dist l.bv ≤ dist r.bv)
                                || !tr)) = true then (rc, dist r.bv)
                              else (lc, dist l.bv)) :: stack
                          else stack, B.1, B.2⟩
                  else popStep stack B.1 B.2) := by
                unfold nearestStep
                dsimp only
                rw [if_pos hen, hacc]
                dsimp only
                rw [hal, har]
                dsimp only
                rw [hbvl, hisl, hidxl, hbvr, hisr, hidxr]
              have residLbnd : tl = false → G1 →
                  ∀ bb ∈ (if l.isLeaf = true then (0 : Multiset Entry)
                    else (entriesT dist l : Multiset Entry)), B.2 ≤ bb.2 := by
                intro htlf hg1 bb hbb
                cases hll : l.isLeaf with
                | true => rw [hll] at hbb; simp at hbb
                | false =>
                    rw [hll] at hbb
                    simp only [if_false, Bool.false_eq_true,
                      Multiset.mem_coe] at hbb
                    rw [htlD, hll] at htlf
                    simp only [Bool.not_false, Bool.and_true] at htlf
                    have hge : B.2 ≤ dist l.bv :=
                      not_lt.1 (of_decide_eq_false htlf)
                    exact le_trans hge
                      (monoDB_lb (monoDB_node (hG1 hg1).1).2.2.1 bb hbb)
              have residRbnd : tr = false → G1 →
                  ∀ bb ∈ (if r.isLeaf = true then (0 : Multiset Entry)
                    else (entriesT dist r : Multiset Entry)), B.2 ≤ bb.2 := by
                intro htrf hg1 bb hbb
                cases hrr' : r.isLeaf with
                | true => rw [hrr'] at hbb; simp at hbb
                | false =>
                    rw [hrr'] at hbb
                    simp only [if_false, Bool.false_eq_true,
                      Multiset.mem_coe] at hbb
                    rw [htrD, hrr'] at htrf
                    simp only [Bool.not_false, Bool.and_true] at htrf
                    have hge : B.2 ≤ dist r.bv :=
                      not_lt.1 (of_decide_eq_false htrf)
                    exact le_trans hge
                      (monoDB_lb (monoDB_node (hG1 hg1).1).2.2.2 bb hbb)
              have residLzero : tl = false → G2 → B.1.length < k →
                  (if l.isLeaf = true then (0 : Multiset Entry)
                    else (entriesT dist l : Multiset Entry)) = 0 := by
                intro htlf hg2 hlen'
                cases hll : l.isLeaf with
                | true => simp [hll]
                | false =>
                    exfalso
                    have hrt : B.2 = ⊤ := PB1.2.2.1 hlen'
                    rw [htlD, hll] at htlf
                    simp only [Bool.not_false, Bool.and_true] at htlf
                    have hnl := of_decide_eq_false htlf
                    rw [hrt] at hnl
                    exact (finB_bv (finB_node (hG2 hg2).1).2.1)
                      (by simpa [WithTop.lt_top_iff_ne_top] using hnl)
              have residRzero : tr = false → G2 → B.1.length < k →
                  (if r.isLeaf = true then (0 : Multiset Entry)
                    else (entriesT dist r : Multiset Entry)) = 0 := by
                intro htrf hg2 hlen'
                cases hrr' : r.isLeaf with
                | true => simp [hrr']
                | false =>
                    exfalso
                    have hrt : B.2 = ⊤ := PB1.2.2.1 hlen'
                    rw [htrD, hrr'] at htrf
                    simp only [Bool.not_false, Bool.and_true] at htrf
                    have hnr := of_decide_eq_false htrf
                    rw [hrt] at hnr
                    exact (finB_bv (finB_node (hG2 hg2).1).2.2)
                      (by simpa [WithTop.lt_top_iff_ne_top] using hnr)
              have residLbal :
                  (if l.isLeaf = true then (entriesT dist l : Multiset Entry)
                    else 0)
                  + (if l.isLeaf = true then (0 : Multiset Entry)
                    else (entriesT dist l : Multiset Entry))
                  = (entriesT dist l : Multiset Entry) := by
                cases hll : l.isLeaf <;> simp [hll]
              have residRbal :
                  (if r.isLeaf = true then (entriesT dist r : Multiset Entry)
                    else 0)
                  + (if r.isLeaf = true then (0 : Multiset Entry)
                    else (entriesT dist r : Multiset Entry))
                  = (entriesT dist r : Multiset Entry) := by
                cases hrr' : r.isLeaf <;> simp [hrr']
              have flagL : tl = true → dist l.bv < B.2 ∧ l.isLeaf = false := by
                intro h
                rw [htlD] at h
                simp only [Bool.and_eq_true, Bool.not_eq_true',
                  decide_eq_true_eq] at h
                exact h
              have flagR : tr = true → dist r.bv < B.2 ∧ r.isLeaf = false := by
                intro h
                rw [htrD] at h
                simp only [Bool.and_eq_true, Bool.not_eq_true',
                  decide_eq_true_eq] at h
                exact h
              have hG2L : G2 → finB dist l = true ∧ dist l.bv ≠ ⊤ :=
                fun hg2 => ⟨(finB_node (hG2 hg2).1).2.1,
                  finB_bv (finB_node (hG2 hg2).1).2.1⟩
              have hG2R : G2 → finB dist r = true ∧ dist r.bv ≠ ⊤ :=
                fun hg2 => ⟨(finB_node (hG2 hg2).1).2.2,
                  finB_bv (finB_node (hG2 hg2).1).2.2⟩
              have hG1L : G1 → monoDB dist l = true :=
                fun hg1 => (monoDB_node (hG1 hg1).1).2.2.1
              have hG1R : G1 → monoDB dist r = true :=
                fun hg1 => (monoDB_node (hG1 hg1).1).2.2.2
              cases htlr : (tl || tr) with
              | true =>
                  cases htt : (tl && tr) with
                  | true =>
                      have htlt : tl = true := by
                        have h := htt
                        simp only [Bool.and_eq_true] at h
                        exact h.1
                      have htrt : tr = true := by
                        have h := htt
                        simp only [Bool.and_eq_true] at h
                        exact h.2
                      obtain ⟨hdlB, hlL⟩ := flagL htlt
                      obtain ⟨hdrB, hrLf⟩ := flagR htrt
                      have PAb' : (A.1 : Multiset Entry) + dL
                          = (heap : Multiset Entry) := by
                        rw [hlL] at PAb
                        simpa using PAb
                      have PBb' : (B.1 : Multiset Entry) + dR
                          = (A.1 : Multiset Entry) := by
                        rw [hrLf] at PBb
                        simpa using PBb
                      have key : (B.1 : Multiset Entry) + dL + dR
                          = (heap : Multiset Entry) := by
                        calc (B.1 : Multiset Entry) + dL + dR
                            = ((B.1 : Multiset Entry) + dR) + dL := by abel
                          _ = (A.1 : Multiset Entry) + dL := by rw [PBb']
                          _ = (heap : Multiset Entry) := PAb'
                      have hdisc2 : G2 → B.1.length < k →
                          disc + dL + dR = 0 := by
                        intro hg2 hlen'
                        rw [hG2d hg2 (by omega), PAz hg2 (by omega),
                          PBz hg2 hlen']
                        simp
                      have hdisc2b : G1 → ∀ bb ∈ disc + dL + dR,
                          B.2 ≤ bb.2 := by
                        intro hg1 bb hbb
                        simp only [Multiset.mem_add] at hbb
                        rcases hbb with (hbb | hbb) | hbb
                        · exact le_trans (le_trans PB2 PA2)
                            ((hG1 hg1).2.2.2 bb hbb)
                        · exact le_trans PB2 (PAbnd bb hbb)
                        · exact PBbnd bb hbb
                      cases hgl : (tl && (decide (dist l.bv ≤ dist r.bv)
                          || !tr)) with
                      | true =>
                          obtain ⟨f, H, disc', hrun, hbal, hlen, hg2c,
                            hg1c⟩ :=
                            ih l lc (dist l.bv) ((rc, dist r.bv) :: stack)
                              ((r, dist r.bv) :: ss) B.1 B.2 (disc + dL + dR)
                              (by
                                simp only [stSize_cons]
                                omega)
                              hrl hlL
                              (show StackRel acc _ _ from
                                List.Forall₂.cons ⟨hrr, rfl⟩ hst)
                              (by
                                intro x hx
                                rcases List.mem_cons.1 hx with rfl | hx'
                                · exact hrLf
                                · exact hssI x hx')
                              PB1
                              (fun hg2 => ⟨(hG2L hg2).1, (hG2L hg2).2, by
                                intro x hx
                                rcases List.mem_cons.1 hx with rfl | hx'
                                · exact ⟨(hG2R hg2).1, (hG2R hg2).2⟩
                                · exact (hG2 hg2).2.2 x hx'⟩)
                              hdisc2
                              (fun hg1 => ⟨hG1L hg1,
                                show lbOK dist (l, dist l.bv) from
                                  fun e he => monoDB_lb (hG1L hg1) e he, by
                                  intro x hx
                                  rcases List.mem_cons.1 hx with rfl | hx'
                                  · exact ⟨hG1R hg1,
                                      show lbOK dist (r, dist r.bv) from
                                        fun e he =>
                                          monoDB_lb (hG1R hg1) e he⟩
                                  · exact (hG1 hg1).2.2.1 x hx',
                                hdisc2b hg1⟩)
                          refine ⟨f + 1, H, disc', ?_, ?_, hlen, hg2c, hg1c⟩
                          · unfold nearestRun
                            rw [hstepEq]
                            simp only [htlr, htt, hgl, eq_self_iff_true,
                              if_true]
                            exact hrun
                          · calc (H : Multiset Entry) + disc'
                                = (B.1 : Multiset Entry) + (disc + dL + dR)
                                  + pendingE dist l ((r, dist r.bv) :: ss) :=
                                  hbal
                              _ = ((B.1 : Multiset Entry) + dL + dR) + disc
                                  + ((entriesT dist l : Multiset Entry)
                                    + ((entriesT dist r : Multiset Entry)
                                      + stackEntries dist ss)) := by
                                  rw [pendingE_eq, stackEntries_cons]
                                  dsimp only
                                  abel
                              _ = (heap : Multiset Entry) + disc
                                  + ((entriesT dist l : Multiset Entry)
                                    + ((entriesT dist r : Multiset Entry)
                                      + stackEntries dist ss)) := by rw [key]
                              _ = (heap : Multiset Entry) + disc
                                  + pendingE dist (.node b l r) ss := by
                                  rw [pendingE_eq, entriesT_node_coe]
                                  abel
                      | false =>
                          obtain ⟨f, H, disc', hrun, hbal, hlen, hg2c,
                            hg1c⟩ :=
                            ih r rc (dist r.bv) ((lc, dist l.bv) :: stack)
                              ((l, dist l.bv) :: ss) B.1 B.2 (disc + dL + dR)
                              (by
                                simp only [stSize_cons]
                                omega)
                              hrr hrLf
                              (show StackRel acc _ _ from
                                List.Forall₂.cons ⟨hrl, rfl⟩ hst)
                              (by
                                intro x hx
                                rcases List.mem_cons.1 hx with rfl | hx'
                                · exact hlL
                                · exact hssI x hx')
                              PB1
                              (fun hg2 => ⟨(hG2R hg2).1, (hG2R hg2).2, by
                                intro x hx
                                rcases List.mem_cons.1 hx with rfl | hx'
                                · exact ⟨(hG2L hg2).1, (hG2L hg2).2⟩
                                · exact (hG2 hg2).2.2 x hx'⟩)
                              hdisc2
                              (fun hg1 => ⟨hG1R hg1,
                                show lbOK dist (r, dist r.bv) from
                                  fun e he => monoDB_lb (hG1R hg1) e he, by
                                  intro x hx
                                  rcases List.mem_cons.1 hx with rfl | hx'
                                  · exact ⟨hG1L hg1,
                                      show lbOK dist (l, dist l.bv) from
                                        fun e he =>
                                          monoDB_lb (hG1L hg1) e he⟩
                                  · exact (hG1 hg1).2.2.1 x hx',
                                hdisc2b hg1⟩)
                          refine ⟨f + 1, H, disc', ?_, ?_, hlen, hg2c, hg1c⟩
                          · unfold nearestRun
                            rw [hstepEq]
                            simp only [htlr, htt, hgl, eq_self_iff_true,
                              if_true, Bool.false_eq_true, if_false]
                            exact hrun
                          · calc (H : Multiset Entry) + disc'
                                = (B.1 : Multiset Entry) + (disc + dL + dR)
                                  + pendingE dist r ((l, dist l.bv) :: ss) :=
                                  hbal
                              _ = ((B.1 : Multiset Entry) + dL + dR) + disc
                                  + ((entriesT dist l : Multiset Entry)
                                    + ((entriesT dist r : Multiset Entry)
                                      + stackEntries dist ss)) := by
                                  rw [pendingE_eq, stackEntries_cons]
                                  dsimp only
                                  abel
                              _ = (heap : Multiset Entry) + disc
                                  + ((entriesT dist l : Multiset Entry)
                                    + ((entriesT dist r : Multiset Entry)
                                      + stackEntries dist ss)) := by rw [key]
                              _ = (heap : Multiset Entry) + disc
                                  + pendingE dist (.node b l r) ss := by
                                  rw [pendingE_eq, entriesT_node_coe]
                                  abel
                  | false =>
                      cases htlv : tl with
                      | true =>
                          have htrf : tr = false := by
                            cases h : tr
                            · rfl
                            · rw [htlv, h] at htt; simp at htt
                          obtain ⟨hdlB, hlL⟩ := flagL htlv
                          have hgl : (tl && (decide (dist l.bv ≤ dist r.bv)
                              || !tr)) = true := by
                            rw [htlv, htrf]
                            simp
                          have PAb' : (A.1 : Multiset Entry) + dL
                              = (heap : Multiset Entry) := by
                            rw [hlL] at PAb
                            simpa using PAb
                          have key : (B.1 : Multiset Entry) + dL + dR
                              + (if r.isLeaf = true then (0 : Multiset Entry)
                                  else (entriesT dist r : Multiset Entry))
                              = (heap : Multiset Entry)
                                + (entriesT dist r : Multiset Entry) := by
                            calc (B.1 : Multiset Entry) + dL + dR
                                  + (if r.isLeaf = true
                                      then (0 : Multiset Entry)
                                      else (entriesT dist r : Multiset Entry))
                                = (((B.1 : Multiset Entry) + dR) + dL)
                                  + (if r.isLeaf = true
                                      then (0 : Multiset Entry)
                                      else (entriesT dist r :
                                        Multiset Entry)) := by abel
                              _ = (((A.1 : Multiset Entry)
                                    + (if r.isLeaf = true
                                        then (entriesT dist r :
                                          Multiset Entry) else 0)) + dL)
                                  + (if r.isLeaf = true
                                      then (0 : Multiset Entry)
                                      else (entriesT dist r :
                                        Multiset Entry)) := by rw [PBb]
                              _ = ((A.1 : Multiset Entry) + dL)
                                  + ((if r.isLeaf = true
                                      then (entriesT dist r : Multiset Entry)
                                      else 0)
                                    + (if r.isLeaf = true
                                        then (0 : Multiset Entry)
                                        else (entriesT dist r :
                                          Multiset Entry))) := by abel
                              _ = (heap : Multiset Entry)
                                  + (entriesT dist r : Multiset Entry) := by
                                  rw [PAb', residRbal]
                          have hdisc2 : G2 → B.1.length < k →
                              disc + dL + dR
                              + (if r.isLeaf = true then (0 : Multiset Entry)
                                  else (entriesT dist r : Multiset Entry))
                              = 0 := by
                            intro hg2 hlen'
                            rw [hG2d hg2 (by omega), PAz hg2 (by omega),
                              PBz hg2 hlen', residRzero htrf hg2 hlen']
                            simp
                          have hdisc2b : G1 → ∀ bb ∈ disc + dL + dR
                              + (if r.isLeaf = true then (0 : Multiset Entry)
                                  else (entriesT dist r : Multiset Entry)),
                              B.2 ≤ bb.2 := by
                            intro hg1 bb hbb
                            simp only [Multiset.mem_add] at hbb
                            rcases hbb with ((hbb | hbb) | hbb) | hbb
                            · exact le_trans (le_trans PB2 PA2)
                                ((hG1 hg1).2.2.2 bb hbb)
                            · exact le_trans PB2 (PAbnd bb hbb)
                            · exact PBbnd bb hbb
                            · exact residRbnd htrf hg1 bb hbb
                          obtain ⟨f, H, disc', hrun, hbal, hlen, hg2c,
                            hg1c⟩ :=
                            ih l lc (dist l.bv) stack ss B.1 B.2
                              (disc + dL + dR
                                + (if r.isLeaf = true
                                    then (0 : Multiset Entry)
                                    else (entriesT dist r : Multiset Entry)))
                              (by omega) hrl hlL hst hssI PB1
                              (fun hg2 => ⟨(hG2L hg2).1, (hG2L hg2).2,
                                (hG2 hg2).2.2⟩)
                              hdisc2
                              (fun hg1 => ⟨hG1L hg1,
                                show lbOK dist (l, dist l.bv) from
                                  fun e he => monoDB_lb (hG1L hg1) e he,
                                (hG1 hg1).2.2.1, hdisc2b hg1⟩)
                          refine ⟨f + 1, H, disc', ?_, ?_, hlen, hg2c, hg1c⟩
                          · unfold nearestRun
                            rw [hstepEq]
                            simp only [htlr, htt, hgl, eq_self_iff_true,
                              if_true, Bool.false_eq_true, if_false]
                            exact hrun
                          · calc (H : Multiset Entry) + disc'
                                = (B.1 : Multiset Entry)
                                  + (disc + dL + dR
                                    + (if r.isLeaf = true
                                        then (0 : Multiset Entry)
                                        else (entriesT dist r :
                                          Multiset Entry)))
                                  + pendingE dist l ss := hbal
                              _ = ((B.1 : Multiset Entry) + dL + dR
                                    + (if r.isLeaf = true
                                        then (0 : Multiset Entry)
                                        else (entriesT dist r :
                                          Multiset Entry))) + disc
                                  + ((entriesT dist l : Multiset Entry)
                                    + stackEntries dist ss) := by
                                  rw [pendingE_eq]
                                  abel
                              _ = ((heap : Multiset Entry)
                                    + (entriesT dist r : Multiset Entry))
                                  + disc
                                  + ((entriesT dist l : Multiset Entry)
                                    + stackEntries dist ss) := by rw [key]
                              _ = (heap : Multiset Entry) + disc
                                  + pendingE dist (.node b l r) ss := by
                                  rw [pendingE_eq, entriesT_node_coe]
                                  abel
                      | false =>
                          have htrt : tr = true := by
                            cases h : tr
                            · rw [htlv, h] at htlr; simp at htlr
                            · rfl
                          obtain ⟨hdrB, hrLf⟩ := flagR htrt
                          have hgl : (tl && (decide (dist l.bv ≤ dist r.bv)
                              || !tr)) = false := by
                            rw [htlv]
                            simp
                          have PBb' : (B.1 : Multiset Entry) + dR
                              = (A.1 : Multiset Entry) := by
                            rw [hrLf] at PBb
                            simpa using PBb
                          have key : (B.1 : Multiset Entry) + dL + dR
                              + (if l.isLeaf = true then (0 : Multiset Entry)
                                  else (entriesT dist l : Multiset Entry))
                              = (heap : Multiset Entry)
                                + (entriesT dist l : Multiset Entry) := by
                            calc (B.1 : Multiset Entry) + dL + dR
                                  + (if l.isLeaf = true
                                      then (0 : Multiset Entry)
                                      else (entriesT dist l : Multiset Entry))
                                = (((B.1 : Multiset Entry) + dR) + dL)
                                  + (if l.isLeaf = true
                                      then (0 : Multiset Entry)
                                      else (entriesT dist l :
                                        Multiset Entry)) := by abel
                              _ = (((A.1 : Multiset Entry)) + dL)
                                  + (if l.isLeaf = true
                                      then (0 : Multiset Entry)
                                      else (entriesT dist l :
                                        Multiset Entry)) := by rw [PBb']
                              _ = ((heap : Multiset Entry)
                                    + (if l.isLeaf = true
                                        then (entriesT dist l :
                                          Multiset Entry) else 0))
                                  + (if l.isLeaf = true
                                      then (0 : Multiset Entry)
                                      else (entriesT dist l :
                                        Multiset Entry)) := by rw [PAb]
                              _ = (heap : Multiset Entry)
                                  + ((if l.isLeaf = true
                                      then (entriesT dist l : Multiset Entry)
                                      else 0)
                                    + (if l.isLeaf = true
                                        then (0 : Multiset Entry)
                                        else (entriesT dist l :
                                          Multiset Entry))) := by abel
                              _ = (heap : Multiset Entry)
                                  + (entriesT dist l : Multiset Entry) := by
                                  rw [residLbal]
                          have hdisc2 : G2 → B.1.length < k →
                              disc + dL + dR
                              + (if l.isLeaf = true then (0 : Multiset Entry)
                                  else (entriesT dist l : Multiset Entry))
                              = 0 := by
                            intro hg2 hlen'
                            rw [hG2d hg2 (by omega), PAz hg2 (by omega),
                              PBz hg2 hlen', residLzero htlv hg2 hlen']
                            simp
                          have hdisc2b : G1 → ∀ bb ∈ disc + dL + dR
                              + (if l.isLeaf = true then (0 : Multiset Entry)
                                  else (entriesT dist l : Multiset Entry)),
                              B.2 ≤ bb.2 := by
                            intro hg1 bb hbb
                            simp only [Multiset.mem_add] at hbb
                            rcases hbb with ((hbb | hbb) | hbb) | hbb
                            · exact le_trans (le_trans PB2 PA2)
                                ((hG1 hg1).2.2.2 bb hbb)
                            · exact le_trans PB2 (PAbnd bb hbb)
                            · exact PBbnd bb hbb
                            · exact residLbnd htlv hg1 bb hbb
                          obtain ⟨f, H, disc', hrun, hbal, hlen, hg2c,
                            hg1c⟩ :=
                            ih r rc (dist r.bv) stack ss B.1 B.2
                              (disc + dL + dR
                                + (if l.isLeaf = true
                                    then (0 : Multiset Entry)
                                    else (entriesT dist l : Multiset Entry)))
                              (by omega) hrr hrLf hst hssI PB1
                              (fun hg2 => ⟨(hG2R hg2).1, (hG2R hg2).2,
                                (hG2 hg2).2.2⟩)
                              hdisc2
                              (fun hg1 => ⟨hG1R hg1,
                                show lbOK dist (r, dist r.bv) from
                                  fun e he => monoDB_lb (hG1R hg1) e he,
                                (hG1 hg1).2.2.1, hdisc2b hg1⟩)
                          refine ⟨f + 1, H, disc', ?_, ?_, hlen, hg2c, hg1c⟩
                          · unfold nearestRun
                            rw [hstepEq]
                            simp only [htlr, htt, hgl, eq_self_iff_true,
                              if_true, Bool.false_eq_true, if_false]
                            exact hrun
                          · calc (H : Multiset Entry) + disc'
                                = (B.1 : Multiset Entry)
                                  + (disc + dL + dR
                                    + (if l.isLeaf = true
                                        then (0 : Multiset Entry)
                                        else (entriesT dist l :
                                          Multiset Entry)))
                                  + pendingE dist r ss := hbal
                              _ = ((B.1 : Multiset Entry) + dL + dR
                                    + (if l.isLeaf = true
                                        then (0 : Multiset Entry)
                                        else (entriesT dist l :
                                          Multiset Entry))) + disc
                                  + ((entriesT dist r : Multiset Entry)
                                    + stackEntries dist ss) := by
                                  rw [pendingE_eq]
                                  abel
                              _ = ((heap : Multiset Entry)
                                    + (entriesT dist l : Multiset Entry))
                                  + disc
                                  + ((entriesT dist r : Multiset Entry)
                                    + stackEntries dist ss) := by rw [key]
                              _ = (heap : Multiset Entry) + disc
                                  + pendingE dist (.node b l r) ss := by
                                  rw [pendingE_eq, entriesT_node_coe]
                                  abel
              | false =>
                  have htlf : tl = false := by
                    cases h : tl
                    · rfl
                    · rw [h, Bool.true_or] at htlr; simp at htlr
                  have htrf : tr = false := by
                    cases h : tr
                    · rfl
                    · rw [h, Bool.or_true] at htlr; simp at htlr
                  have key : (B.1 : Multiset Entry) + dL + dR
                      + (if l.isLeaf = true then (0 : Multiset Entry)
                          else (entriesT dist l : Multiset Entry))
                      + (if r.isLeaf = true then (0 : Multiset Entry)
                          else (entriesT dist r : Multiset Entry))
                      = (heap : Multiset Entry)
                        + (entriesT dist l : Multiset Entry)
                        + (entriesT dist r : Multiset Entry) := by
                    calc (B.1 : Multiset Entry) + dL + dR
                          + (if l.isLeaf = true then (0 : Multiset Entry)
                              else (entriesT dist l : Multiset Entry))
                          + (if r.isLeaf = true then (0 : Multiset Entry)
                              else (entriesT dist r : Multiset Entry))
                        = ((B.1 : Multiset Entry) + dR)
                          + (dL
                            + ((if l.isLeaf = true then (0 : Multiset Entry)
                                else (entriesT dist l : Multiset Entry))
                              + (if r.isLeaf = true
                                  then (0 : Multiset Entry)
                                  else (entriesT dist r :
                                    Multiset Entry)))) := by abel
                      _ = ((A.1 : Multiset Entry)
                            + (if r.isLeaf = true
                                then (entriesT dist r : Multiset Entry)
                                else 0))
                          + (dL
                            + ((if l.isLeaf = true then (0 : Multiset Entry)
                                else (entriesT dist l : Multiset Entry))
                              + (if r.isLeaf = true
                                  then (0 : Multiset Entry)
                                  else (entriesT dist r :
                                    Multiset Entry)))) := by rw [PBb]
                      _ = ((A.1 : Multiset Entry) + dL)
                          + (((if r.isLeaf = true
                                then (entriesT dist r : Multiset Entry)
                                else 0)
                              + (if r.isLeaf = true
                                  then (0 : Multiset Entry)
                                  else (entriesT dist r : Multiset Entry)))
                            + (if l.isLeaf = true then (0 : Multiset Entry)
                                else (entriesT dist l :
                                  Multiset Entry))) := by abel
                      _ = ((heap : Multiset Entry)
                            + (if l.isLeaf = true
                                then (entriesT dist l : Multiset Entry)
                                else 0))
                          + ((entriesT dist r : Multiset Entry)
                            + (if l.isLeaf = true then (0 : Multiset Entry)
                                else (entriesT dist l :
                                  Multiset Entry))) := by
                          rw [PAb, residRbal]
                      _ = (heap : Multiset Entry)
                          + ((if l.isLeaf = true
                              then (entriesT dist l : Multiset Entry)
                              else 0)
                            + (if l.isLeaf = true then (0 : Multiset Entry)
                                else (entriesT dist l : Multiset Entry)))
                          + (entriesT dist r : Multiset Entry) := by abel
                      _ = (heap : Multiset Entry)
                          + (entriesT dist l : Multiset Entry)
                          + (entriesT dist r : Multiset Entry) := by
                          rw [residLbal]
                  obtain ⟨f, H, disc', hrun, hbal, hlen, hg2c, hg1c⟩ :=
                    popGo B.1 B.2
                      (disc + dL + dR
                        + (if l.isLeaf = true then (0 : Multiset Entry)
                            else (entriesT dist l : Multiset Entry))
                        + (if r.isLeaf = true then (0 : Multiset Entry)
                            else (entriesT dist r : Multiset Entry)))
                      (by omega) PB1 (fun hg2 => (hG2 hg2).2.2)
                      (fun hg2 hlen' => by
                        rw [hG2d hg2 (by omega), PAz hg2 (by omega),
                          PBz hg2 hlen', residLzero htlf hg2 hlen',
                          residRzero htrf hg2 hlen']
                        simp)
                      (fun hg1 => ⟨(hG1 hg1).2.2.1, by
                        intro bb hbb
                        simp only [Multiset.mem_add] at hbb
                        rcases hbb with (((hbb | hbb) | hbb) | hbb) | hbb
                        · exact le_trans (le_trans PB2 PA2)
                            ((hG1 hg1).2.2.2 bb hbb)
                        · exact le_trans PB2 (PAbnd bb hbb)
                        · exact PBbnd bb hbb
                        · exact residLbnd htlf hg1 bb hbb
                        · exact residRbnd htrf hg1 bb hbb⟩)
                  refine ⟨f + 1, H, disc', ?_, ?_, hlen, hg2c, hg1c⟩
                  · apply hrun
                    rw [hstepEq]
                    simp only [htlr, Bool.false_eq_true, if_false]
                  · calc (H : Multiset Entry) + disc'
                        = (B.1 : Multiset Entry)
                          + (disc + dL + dR
                            + (if l.isLeaf = true then (0 : Multiset Entry)
                                else (entriesT dist l : Multiset Entry))
                            + (if r.isLeaf = true then (0 : Multiset Entry)
                                else (entriesT dist r : Multiset Entry)))
                          + stackEntries dist ss := hbal
                      _ = ((B.1 : Multiset Entry) + dL + dR
                            + (if l.isLeaf = true then (0 : Multiset Entry)
                                else (entriesT dist l : Multiset Entry))
                            + (if r.isLeaf = true then (0 : Multiset Entry)
                                else (entriesT dist r : Multiset Entry)))
                          + disc + stackEntries dist ss := by abel
                      _ = ((heap : Multiset Entry)
                            + (entriesT dist l : Multiset Entry)
                            + (entriesT dist r : Multiset Entry))
                          + disc + stackEntries dist ss := by rw [key]
                      _ = (heap : Multiset Entry) + disc
                          + pendingE dist (.node b l r) ss := by
                          rw [pendingE_eq, entriesT_node_coe]
                          abel

/-- A non-negative distance metric lower-bounds every leaf entry by `0`, so
the initial `distance_node = 0` of the traversal is an admissible deferred
distance. -/
theorem nonnegB_lb {α : Type} {dist : α → D} :
    ∀ {t : BTree α}, nonnegB dist t = true →
      ∀ e ∈ entriesT dist t, (0 : D) ≤ e.2 := by
  intro t
  induction t with
  | leaf b i =>
      intro h e he
      simp only [entriesT, BTree.leaves, List.map_cons, List.map_nil,
        List.mem_singleton] at he
      subst he
      simpa [nonnegB] using h
  | node b l r ihl ihr =>
      intro h e he
      simp only [nonnegB, Bool.and_eq_true] at h
      rw [entriesT_node, List.mem_append] at he
      rcases he with he | he
      · exact ihl h.1.2 e he
      · exact ihr h.2 e he

/-- Claim C2: for every BVH with an internal root (`N ≥ 2` leaves) whose
distance metric is non-negative, monotone
(`distance(g, bv(parent)) ≤ distance(g, bv(child))`, the pruning premise)
and finite (a genuine metric value), and every `k ≥ 1`, the nearest kernel
emits a sublist of the leaf entries of exactly `min(k, N)` elements such
that every emitted distance is at most every non-emitted one — the `k`
leaves of smallest distance (all `N` when `N < k`), the tie-break at the
cut-off being the kernel's own deterministic insertion order; on a one-leaf
BVH (`N = 1`) the degenerate kernel emits exactly the single leaf's
entry. -/
theorem nearest_selects_k_smallest {α : Type}
    (acc : Nat → Option (NodeInfo α)) (dist : α → D) (k : Int) (root : Nat)
    (t : BTree α) (hk : 1 ≤ k) (hrep : RepA acc root t)
    (hint : t.isLeaf = false) (hmono : monoDB dist t = true)
    (hnn : nonnegB dist t = true) (hfin : finB dist t = true) :
    (∃ (fuel : Nat) (out : List Entry) (rest : Multiset Entry),
      nearestQuery acc dist k root fuel = some out ∧
      (out : Multiset Entry) + rest = (entriesT dist t : Multiset Entry) ∧
      out.length = min k.toNat t.numLeaves ∧
      (∀ a ∈ out, ∀ b ∈ rest, a.2 ≤ b.2)) ∧
    (∀ bvr : α, nearestOneLeaf k dist bvr
      = entriesT dist (.leaf bvr 0)) := by
  have hk' : 1 ≤ k.toNat := by omega
  constructor
  · obtain ⟨fuel, H, disc', hrun, hbal, hlen, hsmall, hsel⟩ :=
      nearestRun_master acc dist k.toNat hk' True True t.tsize t root 0 []
        [] [] ⊤ 0 (by simp [stSize]) hrep hint List.Forall₂.nil
        (fun td htd => absurd htd (List.not_mem_nil td))
        ⟨List.Pairwise.nil, by simp, fun _ => rfl,
          fun h0 => absurd h0 (by simp; omega)⟩
        (fun _ => ⟨hfin, by simp,
          fun td htd => absurd htd (List.not_mem_nil td)⟩)
        (fun _ _ => rfl)
        (fun _ => ⟨hmono, fun e he => nonnegB_lb hnn e he,
          fun td htd => absurd htd (List.not_mem_nil td),
          fun b hb => absurd hb (Multiset.not_mem_zero b)⟩)
    have hbal' : (H : Multiset Entry) + disc'
        = (entriesT dist t : Multiset Entry) := by
      rw [hbal, pendingE_eq, stackEntries_nil]
      simp
    have hcard : H.length + Multiset.card disc' = t.numLeaves := by
      have hc := congrArg Multiset.card hbal'
      simpa [Multiset.card_add, Multiset.coe_card, entriesT_length]
        using hc
    have hminEq : H.length = min k.toNat t.numLeaves := by
      by_cases hful : H.length < k.toNat
      · have hz := hsmall trivial hful
        rw [hz] at hcard
        simp at hcard
        omega
      · omega
    refine ⟨fuel, sortHeap H, disc', ?_, ?_, ?_, ?_⟩
    · unfold nearestQuery
      rw [if_neg (by omega)]
      exact hrun
    · rw [← hbal']
      congr 1
      exact Multiset.coe_eq_coe.2 (sortHeap_perm H)
    · rw [(sortHeap_perm H).length_eq]
      exact hminEq
    · intro a ha b hb
      exact hsel trivial a ((sortHeap_perm H).mem_iff.1 ha) b hb
  · intro bvr
    unfold nearestOneLeaf
    rw [if_neg (by omega)]
    rfl

/-- Witness for C2 on a concrete two-leaf BVH with the identity-coercion
metric and `k = 1`. -/
theorem nearest_selects_k_smallest_witness :
    (∃ (fuel : Nat) (out : List Entry) (rest : Multiset Entry),
      nearestQuery
        (acc2 ([.inner 0 1 2, .leaf 1 0, .leaf 2 1] : List (NodeInfo ℚ)))
        (fun b => (b : D)) 1 0 fuel = some out ∧
      (out : Multiset Entry) + rest
        = (entriesT (fun b => (b : D))
            (.node (0 : ℚ) (.leaf 1 0) (.leaf 2 1)) : Multiset Entry) ∧
      out.length = min (1 : Int).toNat
        (BTree.numLeaves (.node (0 : ℚ) (.leaf 1 0) (.leaf 2 1))) ∧
      (∀ a ∈ out, ∀ b ∈ rest, a.2 ≤ b.2)) ∧
    (∀ bvr : ℚ, nearestOneLeaf 1 (fun b => (b : D)) bvr
      = entriesT (fun b => (b : D)) (.leaf bvr 0)) := by
  have h2l : RepA (acc2 ([.inner 0 1 2, .leaf 1 0, .leaf 2 1] :
      List (NodeInfo ℚ))) 1 (.leaf 1 0) := RepA.leaf (by decide)
  have h2r : RepA (acc2 ([.inner 0 1 2, .leaf 1 0, .leaf 2 1] :
      List (NodeInfo ℚ))) 2 (.leaf 2 1) := RepA.leaf (by decide)
  exact nearest_selects_k_smallest
    (acc2 ([.inner 0 1 2, .leaf 1 0, .leaf 2 1] : List (NodeInfo ℚ)))
    (fun b => (b : D)) 1 0 (.node 0 (.leaf 1 0) (.leaf 2 1))
    (by decide) (RepA.node (by decide) h2l h2r)
    rfl (by decide) (by decide) (by decide)

/-- Claim C3, counterexample to the original statement: on a well-formed
two-leaf BVH whose leaf distances are all `+∞` (`distance(g, bv) = inf`, a
value single-precision distances do attain), the nearest kernel with
`k = 1` terminates having emitted `0 < min(1, 2)` callbacks: the insertion
test `distance < radius` is `inf < inf = false` even while the heap is
empty, so infinitely-far leaves are dropped and fewer than `min(k, N)`
results are returned. -/
theorem nearest_cardinality_counterexample :
    RepA (acc2 ([.inner 0 1 2, .leaf 1 0, .leaf 2 1] : List (NodeInfo ℚ)))
        0 (.node 0 (.leaf 1 0) (.leaf 2 1)) ∧
    nearestQuery
        (acc2 ([.inner 0 1 2, .leaf 1 0, .leaf 2 1] : List (NodeInfo ℚ)))
        (fun _ => (⊤ : D)) 1 0 2 = some [] ∧
    min (1 : Int).toNat
        (BTree.numLeaves (.node (0 : ℚ) (.leaf 1 0) (.leaf 2 1))) = 1 := by
  have h2l : RepA (acc2 ([.inner 0 1 2, .leaf 1 0, .leaf 2 1] :
      List (NodeInfo ℚ))) 1 (.leaf 1 0) := RepA.leaf (by decide)
  have h2r : RepA (acc2 ([.inner 0 1 2, .leaf 1 0, .leaf 2 1] :
      List (NodeInfo ℚ))) 2 (.leaf 2 1) := RepA.leaf (by decide)
  exact ⟨RepA.node (by decide) h2l h2r, by decide, by decide⟩

/-- Claim C3 (amended: finite leaf distances): for every query with
`k ≥ 1` against a non-empty BVH with `N` leaves whose distances are all
finite, the nearest traversal (general kernel on an internal root, one-leaf
kernel on a single leaf) emits exactly `min(k, N)` callbacks. -/
theorem nearest_cardinality_min_k_n {α : Type}
    (acc : Nat → Option (NodeInfo α)) (dist : α → D) (k : Int) (root : Nat)
    (t : BTree α) (hk : 1 ≤ k) (hrep : RepA acc root t)
    (hint : t.isLeaf = false) (hfin : finB dist t = true) :
    (∃ (fuel : Nat) (out : List Entry),
      nearestQuery acc dist k root fuel = some out ∧
      out.length = min k.toNat t.numLeaves) ∧
    (∀ bvr : α, (nearestOneLeaf k dist bvr).length
      = min k.toNat (BTree.numLeaves (.leaf bvr 0))) := by
  have hk' : 1 ≤ k.toNat := by omega
  constructor
  · obtain ⟨fuel, H, disc', hrun, hbal, hlen, hsmall, _⟩ :=
      nearestRun_master acc dist k.toNat hk' False True t.tsize t root 0 []
        [] [] ⊤ 0 (by simp [stSize]) hrep hint List.Forall₂.nil
        (fun td htd => absurd htd (List.not_mem_nil td))
        ⟨List.Pairwise.nil, by simp, fun _ => rfl,
          fun h0 => absurd h0 (by simp; omega)⟩
        (fun _ => ⟨hfin, by simp,
          fun td htd => absurd htd (List.not_mem_nil td)⟩)
        (fun _ _ => rfl)
        (fun h => h.elim)
    have hbal' : (H : Multiset Entry) + disc'
        = (entriesT dist t : Multiset Entry) := by
      rw [hbal, pendingE_eq, stackEntries_nil]
      simp
    have hcard : H.length + Multiset.card disc' = t.numLeaves := by
      have hc := congrArg Multiset.card hbal'
      simpa [Multiset.card_add, Multiset.coe_card, entriesT_length]
        using hc
    have hminEq : H.length = min k.toNat t.numLeaves := by
      by_cases hful : H.length < k.toNat
      · have hz := hsmall trivial hful
        rw [hz] at hcard
        simp at hcard
        omega
      · omega
    refine ⟨fuel, sortHeap H, ?_, ?_⟩
    · unfold nearestQuery
      rw [if_neg (by omega)]
      exact hrun
    · rw [(sortHeap_perm H).length_eq]
      exact hminEq
  · intro bvr
    unfold nearestOneLeaf
    rw [if_neg (by omega)]
    simp [BTree.numLeaves, BTree.leaves]
    omega

/-- Witness for the amended C3 on a concrete two-leaf BVH with finite
distances and `k = 1`. -/
theorem nearest_cardinality_min_k_n_witness :
    (∃ (fuel : Nat) (out : List Entry),
      nearestQuery
        (acc2 ([.inner 0 1 2, .leaf 1 0, .leaf 2 1] : List (NodeInfo ℚ)))
        (fun b => (b : D)) 1 0 fuel = some out ∧
      out.length = min (1 : Int).toNat
        (BTree.numLeaves (.node (0 : ℚ) (.leaf 1 0) (.leaf 2 1)))) ∧
    (∀ bvr : ℚ, (nearestOneLeaf 1 (fun b => (b : D)) bvr).length
      = min (1 : Int).toNat (BTree.numLeaves (.leaf bvr 0))) := by
  have h2l : RepA (acc2 ([.inner 0 1 2, .leaf 1 0, .leaf 2 1] :
      List (NodeInfo ℚ))) 1 (.leaf 1 0) := RepA.leaf (by decide)
  have h2r : RepA (acc2 ([.inner 0 1 2, .leaf 1 0, .leaf 2 1] :
      List (NodeInfo ℚ))) 2 (.leaf 2 1) := RepA.leaf (by decide)
  exact nearest_cardinality_min_k_n
    (acc2 ([.inner 0 1 2, .leaf 1 0, .leaf 2 1] : List (NodeInfo ℚ)))
    (fun b => (b : D)) 1 0 (.node 0 (.leaf 1 0) (.leaf 2 1))
    (by decide) (RepA.node (by decide) h2l h2r)
    rfl (by decide)

/-- Claim C5: for one logical BVH presented in the two-child encoding
(accessor `acc`, root id `root`) and in the left-child-plus-rope encoding
(node array `ns`, root id `rroot`, sentinel exit rope), the spatial kernels
produce the same multiset of hits for every admissible predicate (the rope
kernel under its hard-coded-start precondition `rroot = 0`, cf. C10), and
the nearest kernels — the rope side reading the right child as
`rope(left_child(node))` through `getRightChild` — produce the same ordered
emission list for every metric, every `k` and every fuel. -/
theorem encoding_equivalence {α : Type} (t : BTree α)
    (acc : Nat → Option (NodeInfo α)) (root : Nat)
    (ns : List (NodeR α)) (rroot : Nat)
    (hA : RepA acc root t) (hR : RepR ns rroot .none t) :
    (∀ p : α → Bool, t.isLeaf = false → monoPB p t = true → rroot = 0 →
      ∃ (fuel₁ : Nat) (out₁ : List Nat) (fuel₂ : Nat) (out₂ : List Nat),
        stackQuery p acc root fuel₁ = some out₁ ∧
        ropeQuery p ⟨ns, rroot⟩ fuel₂ = some out₂ ∧
        out₁.Perm out₂) ∧
    (∀ (dist : α → D) (k : Int) (fuel : Nat),
      nearestQuery acc dist k root fuel
        = nearestQuery (ropeInfo ns) dist k rroot fuel) := by
  constructor
  · intro p hint hm h0
    subst h0
    obtain ⟨f1, hf1⟩ := stackLoop_run p acc t.tsize t root [] [] []
      (by simp [spSize]) hA hint List.Forall₂.nil
    obtain ⟨f2, hf2⟩ := ropeLoop_run p ns t 0 .none [] (satLeaves p t)
      hR hm (by simp [ropeCont])
    refine ⟨f1, sEmit p t, f2, satLeaves p t, ?_, ?_, sEmit_perm hm hint⟩
    · unfold stackQuery
      rw [hf1]
      simp
    · unfold ropeQuery
      exact hf2
  · intro dist k fuel
    unfold nearestQuery
    by_cases hk : k < 1
    · rw [if_pos hk, if_pos hk]
    · rw [if_neg hk, if_neg hk]
      exact nearestRun_bisim acc (ropeInfo ns) dist k.toNat fuel t root
        rroot 0 [] [] [] [] ⊤ hA (RepR_to_RepA hR) List.Forall₂.nil
        List.Forall₂.nil

/-- Witness for C5: a concrete two-leaf BVH in both encodings, with a
threshold predicate and the identity-coercion metric. -/
theorem encoding_equivalence_witness :
    (∃ (fuel₁ : Nat) (out₁ : List Nat) (fuel₂ : Nat) (out₂ : List Nat),
      stackQuery (fun b => decide (b ≤ (1 : ℚ)))
        (acc2 [.inner 0 1 2, .leaf 1 0, .leaf 2 1]) 0 fuel₁ = some out₁ ∧
      ropeQuery (fun b => decide (b ≤ (1 : ℚ)))
        ⟨[.inner 0 1 .none, .leaf 1 0 (.some 2), .leaf 2 1 .none], 0⟩ fuel₂
        = some out₂ ∧
      out₁.Perm out₂) ∧
    nearestQuery (acc2 ([.inner 0 1 2, .leaf 1 0, .leaf 2 1] :
        List (NodeInfo ℚ))) (fun b => (b : D)) 1 0 20
      = nearestQuery (ropeInfo ([.inner 0 1 .none, .leaf 1 0 (.some 2),
          .leaf 2 1 .none] : List (NodeR ℚ))) (fun b => (b : D)) 1 0 20 := by
  have h2l : RepA (acc2 ([.inner 0 1 2, .leaf 1 0, .leaf 2 1] :
      List (NodeInfo ℚ))) 1 (.leaf 1 0) := RepA.leaf (by decide)
  have h2r : RepA (acc2 ([.inner 0 1 2, .leaf 1 0, .leaf 2 1] :
      List (NodeInfo ℚ))) 2 (.leaf 2 1) := RepA.leaf (by decide)
  have hA : RepA (acc2 ([.inner 0 1 2, .leaf 1 0, .leaf 2 1] :
      List (NodeInfo ℚ))) 0 (.node 0 (.leaf 1 0) (.leaf 2 1)) :=
    RepA.node (by decide) h2l h2r
  have hrl : RepR ([.inner 0 1 .none, .leaf 1 0 (.some 2),
      .leaf 2 1 .none] : List (NodeR ℚ)) 1 (.some 2) (.leaf 1 0) :=
    RepR.leaf (by decide)
  have hrr : RepR ([.inner 0 1 .none, .leaf 1 0 (.some 2),
      .leaf 2 1 .none] : List (NodeR ℚ)) 2 .none (.leaf 2 1) :=
    RepR.leaf (by decide)
  have hR : RepR ([.inner 0 1 .none, .leaf 1 0 (.some 2),
      .leaf 2 1 .none] : List (NodeR ℚ)) 0 .none
      (.node 0 (.leaf 1 0) (.leaf 2 1)) :=
    RepR.node (by decide) hrl hrr
  exact ⟨(encoding_equivalence _ _ _ _ _ hA hR).1
      (fun b => decide (b ≤ (1 : ℚ))) rfl (by decide) rfl,
    (encoding_equivalence _ _ _ _ _ hA hR).2 (fun b => (b : D)) 1 20⟩

end ArborX
